import Mathlib

/-!
# Verification of the code-connoisseur chunk extractor, embedding pipeline,
# local vector store and similarity search

This file gives a shallow embedding, in Lean 4, of the core of the
code-connoisseur tool:

* the chunk extractors `splitCode` (codebaseScanner), `processTypeScriptFile`
  (tsParser) and `processPythonFile` (pythonParser);
* the embedding pipeline `embedChunks` (vectorStore);
* the local persistence `storeEmbeddingsLocally` and the reading side
  `searchCodebaseLocally`, `getStorageLocation`, `calculateCosineSimilarity`.

Modelling conventions:

* JavaScript strings are modelled as `List Char`; `substring`
  becomes `drop`/`take`, string search becomes `findIdx?`.
* JavaScript numbers for vector components and similarity scores are
  modelled as real numbers `ℝ` (the usual idealisation of IEEE doubles).
* External parsers (esprima, the TypeScript parsers) are not part of this
  repository; their outcome is passed in as an explicit oracle value
  (`Option (List …Node)`: `none` models a parse failure or a result without
  a body, `some body` models a successful parse).  The regex match passes of
  the Python extractor are likewise passed in as an explicit list of matches
  `(type, name, startPos)`; everything the repository's own code does with
  those matches (block-extent computation, truncation, fallbacks) is
  modelled faithfully.  Universally quantified theorems therefore cover
  every behaviour of the external components.
* The filesystem seen by the vector store is modelled as an explicit
  structure of query functions (`pathExists`, json reads, batch files).
-/

namespace CodeConn

/-- Whitespace as matched by JavaScript `\s` (the ASCII part, which is all
the repository's inputs use). -/
def jsSpace (c : Char) : Bool :=
  c = ' ' || c = '\t' || c = '\n' || c = '\r' || c = '\x0b' || c = '\x0c'

/-- Word characters `[A-Za-z0-9_]` of the TypeScript fallback regex. -/
def isWordChar (c : Char) : Bool :=
  ('A' ≤ c && c ≤ 'Z') || ('a' ≤ c && c ≤ 'z') || ('0' ≤ c && c ≤ '9') || c = '_'

/-- `path.basename`: the part of the path after the last `/`. -/
def basename (p : List Char) : List Char :=
  (p.reverse.takeWhile (fun c => !(c = '/'))).reverse

/-- `path.extname`: the suffix of the basename from its last `.` on,
empty when the basename has no dot or only a leading dot (dotfile). -/
def extname (p : List Char) : List Char :=
  let b := basename p
  let pre := b.reverse.takeWhile (fun c => !(c = '.'))
  if pre.length = b.length then []
  else if b.length - pre.length - 1 = 0 then []
  else '.' :: pre.reverse

/-- One extracted code chunk (`{type, name, code, path}` in the source). -/
structure CodeChunk where
  type : List Char
  name : List Char
  code : List Char
  path : List Char
deriving DecidableEq

/-- The whole-file fallback chunk: kind `File`, code truncated to the first
5000 characters. -/
def fileChunk (content fp : List Char) : CodeChunk :=
  ⟨('F' :: "ile".data), basename fp, content.take 5000, fp⟩

/- ### Python extractor (pythonParser.js) -/

/-- One match of the Python declaration regexes: the declaration kind
(`ClassDeclaration` / `FunctionDeclaration`), the captured name and the
match position in the content.  The regex engine itself is external to the
model; each match found by the three regex passes of
`extractPythonChunks` is supplied as one of these. -/
structure PyMatch where
  type : List Char
  name : List Char
  startPos : Nat
deriving DecidableEq

/-- `String.prototype.search(/\S/)`: index of the first non-whitespace
character, `-1` when there is none. -/
def searchNonWS (l : List Char) : Int :=
  match l.findIdx? (fun c => !(jsSpace c)) with
  | some i => (i : Int)
  | none => -1

/-- `String.prototype.trim()`. -/
def jsTrim (l : List Char) : List Char :=
  ((l.dropWhile jsSpace).reverse.dropWhile jsSpace).reverse

/-- Does the list start with the given character? (`startsWith` on a
one-character string.) -/
def startsWithChar (l : List Char) (c : Char) : Bool :=
  match l with
  | [] => false
  | d :: _ => d = c

/-- The loop of `extractAndAddChunk` that walks the lines after the
declaration line and returns the last line index `endLine` belonging to the
block: blank lines and `#` comment lines are provisionally included; the
block ends right before the first other line whose indentation is at most
the declaration line's indentation and which is not a decorator line.
(The source also computes a `blockIndent` value which it never uses
afterwards; it is omitted here.) -/
def findEndPy (firstIndent : Int) : List (List Char) → Nat → Nat → Nat
  | [], _, endLine => endLine
  | line :: rest, i, _endLine =>
    let t := jsTrim line
    if t.isEmpty || startsWithChar t '#' then
      findEndPy firstIndent rest (i + 1) i
    else if searchNonWS line ≤ firstIndent && !(startsWithChar t '@') then
      _endLine
    else
      findEndPy firstIndent rest (i + 1) i

/-- `extractAndAddChunk` of pythonParser.js: slice the content at the match
position, split into lines, find the block extent by indentation
comparison, and build the chunk with its code truncated to 5000
characters. -/
def extractAndAddChunkPy (content fp : List Char) (m : PyMatch) : CodeChunk :=
  let lines := (content.drop m.startPos).splitOn '\n'
  let firstLineIndent := searchNonWS (lines.headD [])
  let endLine := findEndPy firstLineIndent (lines.drop 1) 1 0
  let chunk := List.intercalate ['\n'] (lines.take (endLine + 1))
  ⟨m.type, m.name, chunk.take 5000, fp⟩

/-- `extractPythonChunks`: build one chunk per regex match (class pass,
function pass, decorator pass, in match order); when no match was found
return the single whole-file chunk. -/
def extractPythonChunks (matchList : List PyMatch) (content fp : List Char) :
    List CodeChunk :=
  let chunks := matchList.map (extractAndAddChunkPy content fp)
  if chunks.isEmpty then [fileChunk content fp] else chunks

/-- `processPythonFile`: empty content throws and is caught by the
whole-file fallback (whose code is then empty); content over 500 KB is
routed straight to the whole-file fallback; otherwise the regex
extraction runs. -/
def processPythonFile (matchList : List PyMatch) (content fp : List Char) :
    List CodeChunk :=
  if content.isEmpty then [⟨('F' :: "ile".data), basename fp, [], fp⟩]
  else if content.length > 500000 then [fileChunk content fp]
  else extractPythonChunks matchList content fp

/- ### TypeScript extractor (tsParser.js) -/

/-- A top-level node of the TypeScript AST as far as `extractChunks`
inspects it: its `type`, its `range` (absent models a node without valid
range data), `id.name` and `declaration.id.name` when present. -/
structure TSNode where
  type : List Char
  range : Option (Nat × Nat)
  idName : Option (List Char)
  declIdName : Option (List Char)
deriving DecidableEq

/-- The node types extracted by `extractChunks` of tsParser.js. -/
def tsChunkTypes : List (List Char) :=
  ["ClassDeclaration".data, "FunctionDeclaration".data,
   "InterfaceDeclaration".data, "TypeAliasDeclaration".data,
   "EnumDeclaration".data, "ExportNamedDeclaration".data,
   "ExportDefaultDeclaration".data]

/-- One node of `extractChunks`: check the range is valid
(`0 ≤ r₁ < r₂ ≤ content.length`), check the node type, slice the code and
truncate it to 5000 characters; the name falls back from `id.name` to
`declaration.id.name` to `anonymous`. -/
def tsNodeChunk (content fp : List Char) (n : TSNode) : Option CodeChunk :=
  match n.range with
  | none => none
  | some (r₁, r₂) =>
    if r₁ < r₂ && r₂ ≤ content.length then
      if tsChunkTypes.contains n.type then
        let chunk := (content.drop r₁).take (r₂ - r₁)
        let name := match n.idName with
          | some nm => nm
          | none => match n.declIdName with
            | some nm => nm
            | none => "anonymous".data
        some ⟨n.type, name, chunk.take 5000, fp⟩
      else none
    else none

/-- `extractChunks` of tsParser.js, given the AST body: extract the listed
declaration kinds; when nothing was extracted return the whole-file
chunk. -/
def extractChunksTS (body : List TSNode) (content fp : List Char) :
    List CodeChunk :=
  let chunks := body.filterMap (tsNodeChunk content fp)
  if chunks.isEmpty then [fileChunk content fp] else chunks

/-- The binary-content gate of `processTypeScriptFile`: a NUL character
anywhere, or a control character from `[\x00-\x08\x0B\x0C\x0E-\x1F]` in the
first 1000 characters. -/
def tsBinaryCheck (content : List Char) : Bool :=
  content.any (fun c => c = '\x00') ||
  (content.take 1000).any (fun c =>
    decide (c.toNat ≤ 8) || c.toNat = 11 || c.toNat = 12 ||
    (decide (14 ≤ c.toNat) && decide (c.toNat ≤ 31)))

/-- Match a literal string at the head of the input, returning the rest. -/
def stripLit : List Char → List Char → Option (List Char)
  | [], input => some input
  | _ :: _, [] => none
  | p :: ps, c :: cs => if c = p then stripLit ps cs else none

/-- Match `\s+` (one or more whitespace characters, greedily). -/
def stripSpaces1 (l : List Char) : Option (List Char) :=
  match l with
  | [] => none
  | c :: cs => if jsSpace c then some (cs.dropWhile jsSpace) else none

/-- Match `[A-Za-z0-9_]+` greedily, returning the captured name and the
rest. -/
def stripName (l : List Char) : Option (List Char × List Char) :=
  let nm := l.takeWhile isWordChar
  if nm.isEmpty then none else some (nm, l.dropWhile isWordChar)

/-- The keyword alternation of the TypeScript fallback regex, in the
source's order. -/
def tsKeywords : List (List Char) :=
  ["class".data, "interface".data, "type".data, "enum".data,
   "function".data, "const".data, "let".data, "var".data]

/-- Try `(kw)\s+([A-Za-z0-9_]+)` for each keyword alternative in order.
No keyword is a prefix of another, so at most one alternative can match a
given input, exactly as in the backtracking regex engine. -/
def stripKwName : List (List Char) → List Char → Option (List Char × List Char × List Char)
  | [], _ => none
  | k :: ks, l =>
    match stripLit k l with
    | some r =>
      match stripSpaces1 r with
      | some r₂ =>
        match stripName r₂ with
        | some (nm, rest) => some (k, nm, rest)
        | none => stripKwName ks l
      | none => stripKwName ks l
    | none => stripKwName ks l

/-- Match the optional group `(export\s+)?` / `(default\s+)?`: take it when
it matches, otherwise leave the input unchanged.  (Backtracking out of the
group can never help here, because no keyword alternative starts with
`export` or `default`.) -/
def stripOpt (pat : List Char) (l : List Char) : List Char :=
  match stripLit pat l with
  | some r =>
    match stripSpaces1 r with
    | some r₂ => r₂
    | none => l
  | none => l

/-- Try the whole fallback regex
`(export\s+)?(default\s+)?(class|interface|type|enum|function|const|let|var)\s+([A-Za-z0-9_]+)`
anchored at the head of the input; on success return the keyword, the name
and the total match length. -/
def matchAtHead (l : List Char) : Option (List Char × List Char × Nat) :=
  let l₁ := stripOpt "export".data l
  let l₂ := stripOpt "default".data l₁
  match stripKwName tsKeywords l₂ with
  | some (kw, nm, rest) => some (kw, nm, l.length - rest.length)
  | none => none

/-- Find the leftmost match of the fallback regex in the input, returning
its offset together with the match data (the `exec` search). -/
def matchFrom : List Char → Option (Nat × List Char × List Char × Nat)
  | [] => none
  | c :: cs =>
    match matchAtHead (c :: cs) with
    | some (kw, nm, len) => some (0, kw, nm, len)
    | none =>
      match matchFrom cs with
      | some (off, kw, nm, len) => some (off + 1, kw, nm, len)
      | none => none

/-- The brace-depth scan of the fallback: starting at the declaration,
`{` increments and `}` decrements the depth (which starts at 0 and may go
negative, as in the source); the scan ends just after the `}` that brings
the depth to exactly 0.  Returns the relative end position. -/
def braceScan : List Char → Int → Nat → Option Nat
  | [], _, _ => none
  | c :: cs, depth, idx =>
    if c = '\x7b' then braceScan cs (depth + 1) (idx + 1)
    else if c = '\x7d' then
      if depth - 1 = 0 then some (idx + 1) else braceScan cs (depth - 1) (idx + 1)
    else braceScan cs depth (idx + 1)

/-- The keywords whose declarations are delimited by braces in the
fallback. -/
def tsBlockKeywords : List (List Char) :=
  ["class".data, "interface".data, "function".data, "enum".data]

/-- Compute the end position of a fallback declaration starting at
`startPos`: brace matching for block keywords, the next semicolon (when at
a positive index) for the rest, defaulting to the end of the content. -/
def computeEndTS (content : List Char) (kw : List Char) (startPos : Nat) : Nat :=
  if tsBlockKeywords.contains kw then
    match braceScan (content.drop startPos) 0 0 with
    | some rel => startPos + rel
    | none => content.length
  else
    match (content.drop startPos).findIdx? (fun c => c = ';') with
    | some rel => if startPos + rel > 0 then startPos + rel + 1 else content.length
    | none => content.length

/-- Capitalise the keyword and append `Declaration` (the chunk type of the
fallback). -/
def capDecl (kw : List Char) : List Char :=
  match kw with
  | [] => "Declaration".data
  | c :: cs => c.toUpper :: cs ++ "Declaration".data

/-- The `exec` loop of the regex fallback of `processTypeScriptFile`:
repeatedly find the next match from the current `lastIndex`, compute the
declaration extent, and push the chunk when the extent is under 10000
characters — NOT truncated to 5000.  Every match consumes at least one
character, so `content.length + 1` units of fuel are never exhausted. -/
def tsRegexLoop (content fp : List Char) : Nat → Nat → List CodeChunk
  | 0, _ => []
  | fuel + 1, lastIndex =>
    match matchFrom (content.drop lastIndex) with
    | none => []
    | some (off, kw, nm, mlen) =>
      let startPos := lastIndex + off
      let endPos := computeEndTS content kw startPos
      let rest := tsRegexLoop content fp fuel (startPos + mlen)
      if endPos - startPos < 10000 then
        ⟨capDecl kw, nm, (content.drop startPos).take (endPos - startPos), fp⟩ :: rest
      else rest

/-- The regex-based final fallback of `processTypeScriptFile`. -/
def tsRegexChunks (content fp : List Char) : List CodeChunk :=
  tsRegexLoop content fp (content.length + 1) 0

/-- `processTypeScriptFile`: empty content throws into the whole-file
fallback; oversized or binary-looking content returns the whole file
truncated; a successful parse with a body goes through `extractChunks`; a
parse failure (or a parse result without a body) goes through the regex
fallback, and only when that finds nothing is the whole-file chunk
returned. -/
def processTypeScriptFile (parseResult : Option (List TSNode))
    (content fp : List Char) : List CodeChunk :=
  if content.isEmpty then [fileChunk content fp]
  else if content.length > 500000 then [fileChunk content fp]
  else if tsBinaryCheck content then [fileChunk content fp]
  else
    match parseResult with
    | some body => extractChunksTS body content fp
    | none =>
      let chunks := tsRegexChunks content fp
      if chunks.isEmpty then [fileChunk content fp] else chunks

/- ### JavaScript extractor (codebaseScanner.js, `splitCode`) -/

/-- A top-level node of the esprima AST as far as `splitCode` inspects it:
its `type`, its `range` and `id.name` when present. -/
structure ESNode where
  type : List Char
  range : Option (Nat × Nat)
  idName : Option (List Char)
deriving DecidableEq

/-- One node of the esprima extraction in `splitCode`: only function and
class declarations with a valid range are sliced, and the chunk code is
truncated to 5000 characters. -/
def esNodeChunk (content fp : List Char) (n : ESNode) : Option CodeChunk :=
  if n.type = "FunctionDeclaration".data || n.type = "ClassDeclaration".data then
    match n.range with
    | none => none
    | some (r₁, r₂) =>
      if r₁ < r₂ && r₂ ≤ content.length then
        let chunk := (content.drop r₁).take (r₂ - r₁)
        if chunk.isEmpty then none
        else
          let name := match n.idName with
            | some nm => nm
            | none => "anonymous".data
          some ⟨n.type, name, chunk.take 5000, fp⟩
      else none
  else none

/-- The JavaScript extensions `splitCode` parses with esprima. -/
def jsExts : List (List Char) :=
  [".js".data, ".jsx".data, ".mjs".data, ".cjs".data, ".es6".data]

/-- `splitCode`: invalid (empty) content returns the file whole; `.ts` and
`.tsx` delegate to the TypeScript extractor, `.py` to the Python extractor
(both are total, so their surrounding try/catch never fires); other
non-JavaScript extensions return the file whole; oversized content or the
`￿` marker return the file whole; otherwise esprima runs (its net
outcome over the two parse modes is the `esParse` oracle) and function and
class declarations are extracted, falling back to the whole file. -/
def splitCode (tsParse : Option (List TSNode)) (esParse : Option (List ESNode))
    (pyMatches : List PyMatch) (content fp : List Char) : List CodeChunk :=
  if content.isEmpty then [⟨('F' :: "ile".data), basename fp, [], fp⟩]
  else
    let ext := (extname fp).map Char.toLower
    if ext = ".ts".data || ext = ".tsx".data then
      processTypeScriptFile tsParse content fp
    else if ext = ".py".data then
      processPythonFile pyMatches content fp
    else if !(jsExts.contains ext) then [fileChunk content fp]
    else if content.length > 100000 || content.any (fun c => c = '￿') then
      [fileChunk content fp]
    else
      match esParse with
      | some body =>
        let chunks := body.filterMap (esNodeChunk content fp)
        if chunks.isEmpty then [fileChunk content fp] else chunks
      | none => [fileChunk content fp]

/- ### Embedding pipeline (vectorStore.js, `embedChunks`) -/

/-- Decimal rendering of a natural number (JavaScript number-to-string in a
template literal): most-significant digit first, `0` rendered as `0`. -/
def natRepr (n : Nat) : List Char :=
  if n = 0 then ['0'] else ((Nat.digits 10 n).map Nat.digitChar).reverse

/-- UTF-8 bytes of one unicode scalar value (what `Buffer.from` produces
per character). -/
def utf8Char (c : Char) : List Nat :=
  let n := c.toNat
  if n < 128 then [n]
  else if n < 2048 then [192 + n / 64, 128 + n % 64]
  else if n < 65536 then [224 + n / 4096, 128 + n / 64 % 64, 128 + n % 64]
  else [240 + n / 262144, 128 + n / 4096 % 64, 128 + n / 64 % 64, 128 + n % 64]

/-- UTF-8 bytes of a string. -/
def utf8Bytes (l : List Char) : List Nat :=
  l.flatMap utf8Char

/-- The standard base64 alphabet. -/
def b64Alphabet : List Char :=
  "ABCDEFGHIJKLMNOPQRSTUVWXYZabcdefghijklmnopqrstuvwxyz0123456789+/".data

/-- One base64 output character. -/
def b64Char (k : Nat) : Char :=
  b64Alphabet.getD k 'A'

/-- Standard base64 encoding of a byte list (`Buffer.toString('base64')`). -/
def base64Encode : List Nat → List Char
  | [] => []
  | [b] => [b64Char (b / 4), b64Char (b % 4 * 16), '=', '=']
  | [b₁, b₂] => [b64Char (b₁ / 4), b64Char (b₁ % 4 * 16 + b₂ / 16),
                 b64Char (b₂ % 16 * 4), '=']
  | b₁ :: b₂ :: b₃ :: rest =>
    b64Char (b₁ / 4) :: b64Char (b₁ % 4 * 16 + b₂ / 16) ::
    b64Char (b₂ % 16 * 4 + b₃ / 64) :: b64Char (b₃ % 64) :: base64Encode rest

/-- The id hash of `embedChunks`:
`Buffer.from(path + "-" + name).toString('base64').substring(0, 12)`. -/
def idHash (path name : List Char) : List Char :=
  (base64Encode (utf8Bytes (path ++ '-' :: name))).take 12

/-- The id of the chunk at overall input position `n`:
the short hash, a dash, and the position. -/
def mkId (c : CodeChunk) (n : Nat) : List Char :=
  idHash c.path c.name ++ '-' :: natRepr n

/-- The metadata record of an embedded chunk
(`{path, type, name, code}`, code truncated to 5000 characters at
embedding time). -/
structure EmbMeta where
  path : List Char
  type : List Char
  name : List Char
  code : List Char
deriving DecidableEq

/-- An embedded chunk `{id, values, metadata}`. -/
structure EmbChunk where
  id : List Char
  values : List ℝ
  metadata : EmbMeta

/-- The output record of `embedChunks` for the chunk at overall position
`n`, given the provider's vector for its code. -/
def mkEmb (c : CodeChunk) (n : Nat) (vec : List ℝ) : EmbChunk :=
  ⟨mkId c n, vec,
   ⟨c.path, c.type, c.name, c.code.take 5000⟩⟩

/-- The inner `for j` loop of `embedChunks` over one batch whose vectors
came back from `embedDocuments` (one vector per text, in order): associate
the j-th vector with the j-th chunk of the batch. -/
def embedBatch (batch : List CodeChunk) (vectors : List (List ℝ)) (i : Nat) :
    List EmbChunk :=
  match batch, vectors with
  | [], _ => []
  | _ :: _, [] => []
  | c :: cs, v :: vs => mkEmb c i v :: embedBatch cs vs (i + 1)

/-- The batch loop of `embedChunks`: slice off 100 chunks, embed their
code texts with the provider (`embedDocuments texts = texts.map embedOne`),
zip the vectors back positionally, and continue at `i + 100`. -/
def embedChunksAux (embedOne : List Char → List ℝ) :
    List CodeChunk → Nat → List EmbChunk
  | [], _ => []
  | c :: cs, i =>
    let batch := (c :: cs).take 100
    let vectors := (batch.map (·.code)).map embedOne
    embedBatch batch vectors i ++ embedChunksAux embedOne ((c :: cs).drop 100) (i + 100)
  termination_by cs _ => cs.length
  decreasing_by simp; omega

/-- `embedChunks`, parameterised by the per-text embedding provider. -/
def embedChunks (embedOne : List Char → List ℝ) (chunks : List CodeChunk) :
    List EmbChunk :=
  embedChunksAux embedOne chunks 0

/-- The elementwise description of `embedChunks`: one output per input, in
order, numbered from `i`. -/
def embedSpec (embedOne : List Char → List ℝ) :
    List CodeChunk → Nat → List EmbChunk
  | [], _ => []
  | c :: cs, i => mkEmb c i (embedOne c.code) :: embedSpec embedOne cs (i + 1)

/- ### Local persistence (vectorStore.js, `storeEmbeddingsLocally`) -/

/-- An entry of a `vec-i.json` batch file: `{id, values}`. -/
structure VecEntry where
  id : List Char
  values : List ℝ

/-- The short-key metadata form `{p, t, n, c}` written to `meta-i.json`. -/
structure ShortMeta where
  p : List Char
  t : List Char
  n : List Char
  c : List Char
deriving DecidableEq

/-- An entry of a `meta-i.json` batch file: `{id, metadata}`. -/
structure MetaEntry where
  id : List Char
  metadata : ShortMeta
deriving DecidableEq

/-- The `meta.json` descriptor of an index.  Timestamps are modelled as
naturals (ISO strings are ordered the same way). -/
structure IndexMeta where
  name : List Char
  dimension : Nat
  metric : List Char
  chunkCount : Nat
  created : Nat
  updated : Nat
deriving DecidableEq

/-- The evolving path-deduplication state of `storeEmbeddingsLocally`:
the `pathMappings` object as an insertion-ordered association list from
full path to short path id, and the `pathId` counter. -/
structure PathState where
  table : List (List Char × List Char)
  ctr : Nat

/-- `getPathId`: return the existing short id for a path, or assign the
next fresh id `p<ctr>`. -/
def getPathId (st : PathState) (p : List Char) : List Char × PathState :=
  match st.table.find? (fun e => e.1 == p) with
  | some e => (e.2, st)
  | none =>
    let pid := 'p' :: natRepr st.ctr
    (pid, ⟨st.table ++ [(p, pid)], st.ctr + 1⟩)

/-- Process one embedded chunk inside the batch loop: assign its path id
and build its vectors-file and metadata-file entries. -/
def storeChunk (st : PathState) (c : EmbChunk) :
    (VecEntry × MetaEntry) × PathState :=
  let (pid, st') := getPathId st c.metadata.path
  ((⟨c.id, c.values⟩,
    ⟨c.id, ⟨pid, c.metadata.type, c.metadata.name, c.metadata.code⟩⟩), st')

/-- Process all chunks in order, threading the path state through
(the batch boundaries do not interrupt the state, so the per-batch
`forEach` loops amount to one pass over the whole list). -/
def storeChunks : List EmbChunk → PathState →
    List (VecEntry × MetaEntry) × PathState
  | [], st => ([], st)
  | c :: cs, st =>
    let (e, st') := storeChunk st c
    let (es, st'') := storeChunks cs st'
    (e :: es, st'')

/-- Split a list into consecutive slices of 500 elements (the
`BATCH_SIZE = 500` partition of the store). -/
def chunksOf500 : List α → List (List α)
  | [] => []
  | a :: l =>
    ((a :: l).take 500) :: chunksOf500 ((a :: l).drop 500)
  termination_by l => l.length
  decreasing_by simp; omega

/-- Everything `storeEmbeddingsLocally` writes for one call, as data: the
`meta.json` descriptor, the `vec-i.json` / `meta-i.json` batch file pairs,
the `paths.json` path table and the `map.json` id-to-position entries (for
the last, a JavaScript object keyed by id; the model keeps the full
insertion sequence, later writes for a duplicate id shadowing earlier
ones). -/
structure StoredIndex where
  meta : IndexMeta
  batches : List (List VecEntry × List MetaEntry)
  pathTable : List (List Char × List Char)
  mappings : List (List Char × Nat × Nat)

/-- The `map.json` entries: chunk id to `{batch, index}` in push order. -/
def mapEntries (entries : List (VecEntry × MetaEntry)) : List (List Char × Nat × Nat) :=
  (entries.enum.map fun (k, e) => (e.1.id, k / 500, k % 500))

/-- `storeEmbeddingsLocally` as a function of the previous `meta.json`
content (which it reads nowhere), the current time and the input chunks:
writes a fresh `meta.json` whose `chunkCount` is this call's chunk count
and whose `created` and `updated` are both the current time, then writes
the 500-chunk batch files, `paths.json` and `map.json`. -/
def storeEmbeddingsLocally (prevMeta : Option IndexMeta)
    (indexName : List Char) (now : Nat) (embeddedChunks : List EmbChunk) :
    StoredIndex :=
  let meta : IndexMeta :=
    ⟨indexName, 1536, "cosine".data, embeddedChunks.length, now, now⟩
  let (entries, finalSt) := storeChunks embeddedChunks ⟨[], 0⟩
  { meta := meta
    batches := (chunksOf500 entries).map (fun l => (l.map (·.1), l.map (·.2)))
    pathTable := finalSt.table
    mappings := mapEntries entries }

/-- The path-id resolution of the reading side (`resolvePath` in
`searchCodebaseLocally`): the first table key whose value is the short id,
or the id itself when the table has no such entry. -/
def resolvePath (table : List (List Char × List Char)) (pid : List Char) :
    List Char :=
  match table.find? (fun e => e.2 == pid) with
  | some e => e.1
  | none => pid

/-- Translate a short-key metadata record back to the full form through
the path table (lines 501–508 of the search). -/
def translateMeta (table : List (List Char × List Char)) (sm : ShortMeta) :
    EmbMeta :=
  ⟨resolvePath table sm.p, sm.t, sm.n, sm.c⟩

/- ### Cosine similarity (vectorStore.js, `calculateCosineSimilarity`) -/

/-- The accumulator loop of `calculateCosineSimilarity`: the sum of the
pairwise products of two vectors.  With `b := a` this is the `normA`
accumulator; the source's loop runs over the indices of the first vector,
which coincides with this pairwise recursion whenever the vectors have
equal length (the only case in which the JavaScript loop reads no
out-of-bounds index). -/
def sumProducts : List ℝ → List ℝ → ℝ
  | a :: as, b :: bs => a * b + sumProducts as bs
  | _, _ => 0

/-- `calculateCosineSimilarity`: `dot / (√normA · √normB)`, and exactly 0
when either accumulated norm is 0. -/
noncomputable def calculateCosineSimilarity (vecA vecB : List ℝ) : ℝ :=
  let dotProduct := sumProducts vecA vecB
  let normA := sumProducts vecA vecA
  let normB := sumProducts vecB vecB
  if normA = 0 ∨ normB = 0 then 0
  else dotProduct / (Real.sqrt normA * Real.sqrt normB)

/- ### Local similarity search (vectorStore.js, `searchCodebaseLocally`) -/

/-- A metadata record as read back from a `meta-i.json` (or legacy
`metadata-i.json`) file: either the optimized short-key form or the
original full form (the `metadataEntry.p !== undefined` branch). -/
inductive StoredMeta where
  | short (sm : ShortMeta)
  | full (m : EmbMeta)

/-- Convert a stored metadata record to the full form (lines 499–512 of
the search). -/
def convertMeta (table : List (List Char × List Char)) : StoredMeta → EmbMeta
  | .short sm => translateMeta table sm
  | .full m => m

/-- One search result `{metadata, score}`. -/
structure SearchResult where
  metadata : EmbMeta
  score : ℝ

/-- The on-disk state of one batch index as the scanning loop sees it:
both files absent (in new and old naming), present but failing to read
as JSON, or present with their entry lists. -/
inductive DiskBatch where
  | absent
  | unreadable
  | present (vecs : List VecEntry) (metas : List StoredMeta)

/-- Does the scanning loop stop at this batch state without processing
any of its entries? -/
def DiskBatch.stopsScan : DiskBatch → Bool
  | .absent => true
  | .unreadable => true
  | .present _ _ => false

/-- The inner loop over one batch: for each vector entry in order, convert
the positionally matching metadata entry, compute the similarity to the
query vector, and keep the result only when the similarity is strictly
above the 0.5 threshold.  When the vectors file has more entries than the
metadata file the source throws a `TypeError` mid-loop, which the catch
turns into a break: the `Bool` component reports whether the batch
completed. -/
noncomputable def scoreBatch (qv : List ℝ) (table : List (List Char × List Char)) :
    List VecEntry → List StoredMeta → List SearchResult × Bool
  | [], _ => ([], true)
  | _ :: _, [] => ([], false)
  | v :: vs, m :: ms =>
    let md := convertMeta table m
    let s := calculateCosineSimilarity qv v.values
    let (rest, ok) := scoreBatch qv table vs ms
    if s > 1 / 2 then (⟨md, s⟩ :: rest, ok) else (rest, ok)

/-- The `while (batchExists)` loop: process batch files in order starting
at index 0; stop at the first absent batch, at the first unreadable batch
(the catch breaks, keeping the results gathered so far), and at a batch
whose processing failed mid-way. -/
noncomputable def scanBatches (qv : List ℝ) (table : List (List Char × List Char)) :
    List DiskBatch → List SearchResult
  | [] => []
  | .absent :: _ => []
  | .unreadable :: _ => []
  | .present vecs metas :: rest =>
    let (rs, ok) := scoreBatch qv table vecs metas
    if ok then rs ++ scanBatches qv table rest else rs

/-- The descending-score comparison handed to `Array.prototype.sort`. -/
def scoreGE (a b : SearchResult) : Prop :=
  b.score ≤ a.score

noncomputable instance : DecidableRel scoreGE := fun a b =>
  Real.decidableLE b.score a.score

instance : IsTotal SearchResult scoreGE :=
  ⟨fun a b => le_total b.score a.score⟩

instance : IsTrans SearchResult scoreGE :=
  ⟨fun _ _ _ h₁ h₂ => le_trans h₂ h₁⟩

/-- Sort results by score, descending (a comparison sort realising the
`(a, b) => b.score - a.score` comparator). -/
noncomputable def sortByScore (rs : List SearchResult) : List SearchResult :=
  rs.insertionSort scoreGE

/- ### Storage-location resolution (vectorStore.js, `getStorageLocation`) -/

/-- `path.join` for the already-normalised paths the store builds. -/
def joinP (a b : List Char) : List Char :=
  a ++ '/' :: b

/-- `LOCAL_VECTOR_PATH`: `<cwd>/.code-connoisseur/vectors`. -/
def localVectorPath (cwd : List Char) : List Char :=
  joinP (joinP cwd ".code-connoisseur".data) "vectors".data

/-- The filesystem and directory contents as the reading side queries
them: path existence, the parsed `<index>-location.json` (outer `none`
models a failed read/parse, the inner option the presence of the
`alternate_path` field), the parsed `paths.json` (`none` models a failed
read), and the batch-file states of a directory. -/
structure SearchFS where
  pathExists : List Char → Bool
  readLocationJson : List Char → Option (Option (List Char))
  readPathsJson : List Char → Option (List (List Char × List Char))
  batchesAt : List Char → List DiskBatch

/-- The `<index>-location.json` step of `getStorageLocation`: the pointer
file must exist, parse, carry a non-empty (truthy) `alternate_path`, and
that path must exist. -/
def recordedAlternate (fs : SearchFS) (cwd indexName : List Char) :
    Option (List Char) :=
  let locationFile := joinP (localVectorPath cwd) (indexName ++ "-location.json".data)
  if fs.pathExists locationFile then
    match fs.readLocationJson locationFile with
    | some (some alt) => if !alt.isEmpty && fs.pathExists alt then some alt else none
    | _ => none
  else none

/-- `getStorageLocation`: (1) the primary per-index directory, if it
exists; (2) the recorded alternate location per `recordedAlternate`;
(3) the legacy home-directory location, if it exists. The final
well-known-candidates loop of the source is dead code: `glob` is never
required in vectorStore.js, so `glob.sync(altPattern)` throws a
ReferenceError on every iteration, which the per-pattern `catch`
swallows; the loop therefore never returns and the function falls
through to `return null`, i.e. `none` whenever the first three probes
miss. -/
def getStorageLocation (fs : SearchFS) (cwd home indexName : List Char) :
    Option (List Char) :=
  let standardPath := joinP (localVectorPath cwd) indexName
  if fs.pathExists standardPath then some standardPath
  else
    match recordedAlternate fs cwd indexName with
    | some alt => some alt
    | none =>
      let legacyPath := joinP (joinP home ".code-connoisseur-vectors".data) indexName
      if fs.pathExists legacyPath then some legacyPath
      else
        -- the alternateLocations loop: every iteration throws on the
        -- undefined `glob` before reaching a return, and is caught
        none

/-- `searchCodebaseLocally`, given the query's embedding vector: resolve
the storage location (empty result when unresolved), require `meta.json`
(empty result otherwise), load `paths.json` when present (an unreadable
file leaves the table empty), scan the batch files, keep scores above the
threshold, sort descending and truncate to `topK`. -/
noncomputable def searchCodebaseLocally (fs : SearchFS) (cwd home : List Char)
    (qv : List ℝ) (indexName : List Char) (topK : Nat) : List SearchResult :=
  match getStorageLocation fs cwd home indexName with
  | none => []
  | some indexDir =>
    if fs.pathExists (joinP indexDir "meta.json".data) then
      let table :=
        if fs.pathExists (joinP indexDir "paths.json".data) then
          (fs.readPathsJson (joinP indexDir "paths.json".data)).getD []
        else []
      let allResults := scanBatches qv table (fs.batchesAt indexDir)
      (sortByScore allResults).take topK
    else []

/- ### Spec-style descriptions used for the refinement claims -/

/-- The storage resolution as the specification describes it (claim C9):
an ordered list of candidate directories, won by the first one whose
`IndexMetadata` (`meta.json`) file exists. -/
def resolveByMetaFile (fs : SearchFS) (cwd home indexName : List Char) :
    Option (List Char) :=
  let candidates :=
    [some (joinP (localVectorPath cwd) indexName),
     (if fs.pathExists (joinP (localVectorPath cwd) (indexName ++ "-location.json".data)) then
        match fs.readLocationJson (joinP (localVectorPath cwd) (indexName ++ "-location.json".data)) with
        | some (some alt) => some alt
        | _ => none
      else none),
     some (joinP (joinP home ".code-connoisseur-vectors".data) indexName),
     some (joinP (localVectorPath cwd) indexName),
     some (joinP (joinP (joinP cwd ".code-connoisseur-alt".data) "vectors".data) indexName),
     some (joinP (joinP home ".code-connoisseur-vectors".data) indexName)]
  candidates.findSome? (fun cand =>
    match cand with
    | some dir =>
      if fs.pathExists (joinP dir "meta.json".data) then some dir else none
    | none => none)

/-- The ordered resolution steps of the amended claim C9, given the
candidate directories: the primary and the legacy directory are taken on
bare directory existence, the recorded alternate as computed by
`recordedAlternate` — these three steps are all there are, because the
source's well-known-candidates loop can never produce a result (`glob`
is undefined in vectorStore.js, its `glob.sync` call throws, and the
loop's catch swallows the error). -/
def resolveSteps (fs : SearchFS) (recorded : Option (List Char))
    (standardPath legacyPath : List Char) :
    List (Option (List Char)) :=
  [if fs.pathExists standardPath then some standardPath else none,
   recorded,
   if fs.pathExists legacyPath then some legacyPath else none]

/-- The resolution order as it actually is (the amended claim C9): the
first hit among the `resolveSteps` wins; `none` when no step hits. -/
def resolveAmended (fs : SearchFS) (cwd home indexName : List Char) :
    Option (List Char) :=
  (resolveSteps fs (recordedAlternate fs cwd indexName)
    (joinP (localVectorPath cwd) indexName)
    (joinP (joinP home ".code-connoisseur-vectors".data) indexName)).findSome?
    (fun o => o)

/- ### Defaults and helpers used in statements -/

/-- Default chunk for positional access in theorem statements. -/
def defCodeChunk : CodeChunk :=
  ⟨[], [], [], []⟩

/-- Default embedded chunk for positional access in theorem statements. -/
def defEmbChunk : EmbChunk :=
  ⟨[], [], ⟨[], [], [], []⟩⟩

/-- Default vectors-file entry. -/
def defVecEntry : VecEntry :=
  ⟨[], []⟩

/-- Default metadata-file entry. -/
def defMetaEntry : MetaEntry :=
  ⟨[], ⟨[], [], [], []⟩⟩

/-- The decimal position suffix of an id: everything after the last dash.
Used to show ids of distinct positions are distinct. -/
def extractIdx (l : List Char) : List Char :=
  (l.reverse.takeWhile (fun c => !(c = '-'))).reverse

/-- Well-formedness of a path table whose entries were assigned ids
`p<off>`, `p<off+1>`, … in order. -/
def pathInvAux (off : Nat) (table : List (List Char × List Char)) : Prop :=
  ∀ (k : Nat) (h : k < table.length), (table[k]).2 = 'p' :: natRepr (off + k)

/-- Well-formedness of the path-deduplication state: the counter equals
the table size and the k-th table entry carries the id `p<k>`. -/
def pathInv (st : PathState) : Prop :=
  st.ctr = st.table.length ∧ pathInvAux 0 st.table

/- ### Concrete filesystems for witnesses and counterexamples -/

/-- A filesystem on which nothing exists (claim C8's witness). -/
def emptyFS : SearchFS :=
  ⟨fun _ => false, fun _ => none, fun _ => none, fun _ => []⟩

/-- A filesystem on which exactly the primary per-index directory
`<cwd>/.code-connoisseur/vectors/i` exists — in particular no `meta.json`
exists anywhere (claim C9's counterexample, with `cwd = "w"`). -/
def primaryOnlyFS : SearchFS :=
  ⟨fun p => p == joinP (localVectorPath ['w']) ['i'],
   fun _ => none, fun _ => none, fun _ => []⟩

/-- A filesystem on which exactly the well-known alternate directory
`<cwd>/.code-connoisseur-alt/vectors/i` and its `meta.json` exist
(claim C9's counterexample, second scenario, with `cwd = "w"`). -/
def altOnlyFS : SearchFS :=
  ⟨fun p =>
      (p == joinP (joinP (joinP ['w'] ".code-connoisseur-alt".data) "vectors".data) ['i']) ||
      (p == joinP (joinP (joinP (joinP ['w'] ".code-connoisseur-alt".data) "vectors".data) ['i'])
        "meta.json".data),
   fun _ => none, fun _ => none, fun _ => []⟩

/-- A filesystem whose primary index directory exists together with its
`meta.json`, holding three batch files of which the middle one is absent
(claim C10's witness). -/
def gapFS : SearchFS :=
  ⟨fun p => (p == joinP (localVectorPath ['w']) ['i']) ||
      (p == joinP (joinP (localVectorPath ['w']) ['i']) "meta.json".data),
   fun _ => none, fun _ => none,
   fun d => if d == joinP (localVectorPath ['w']) ['i'] then
       [DiskBatch.present [] [], DiskBatch.absent, DiskBatch.present [] []]
     else []⟩

/- ### Concrete input of the C1 counterexample -/

/-- The content of the C1 counterexample: a class declaration whose
brace-delimited extent is 5010 characters, in a file that cannot parse
(its body is 5000 unbalanced opening parentheses, a hard syntax error for
both TypeScript parsers, so `processTypeScriptFile` reaches its regex
fallback). -/
def cexTsContent : List Char :=
  ['c', 'l', 'a', 's', 's', ' ', 'A', ' ', '\x7b'] ++
    (List.replicate 5000 '(' ++ ['\x7d'])

/-- The file path of the C1 counterexample. -/
def cexTsPath : List Char :=
  "big.ts".data

/- ## Lemmas about the chunk extractors -/

theorem take_length_le (l : List Char) (n : Nat) : (l.take n).length ≤ n := by
  simp [List.length_take]

theorem fileChunk_code_le (content fp : List Char) :
    (fileChunk content fp).code.length ≤ 5000 :=
  take_length_le content 5000

theorem processPythonFile_ne_nil (ml : List PyMatch) (content fp : List Char) :
    processPythonFile ml content fp ≠ [] := by
  simp only [processPythonFile, extractPythonChunks]
  split
  · simp
  · split
    · simp
    · split
      · simp
      · rename_i h
        intro hnil
        rw [hnil] at h
        simp at h

theorem processPythonFile_code_le (ml : List PyMatch) (content fp : List Char) :
    ∀ c ∈ processPythonFile ml content fp, c.code.length ≤ 5000 := by
  intro c hc
  simp only [processPythonFile, extractPythonChunks] at hc
  split at hc
  · simp at hc; subst hc; simp
  · split at hc
    · simp at hc; subst hc; exact fileChunk_code_le _ _
    · split at hc
      · simp at hc; subst hc; exact fileChunk_code_le _ _
      · obtain ⟨m, _, rfl⟩ := List.mem_map.mp hc
        exact take_length_le _ _

theorem tsNodeChunk_code_le (content fp : List Char) (n : TSNode) (c : CodeChunk)
    (h : tsNodeChunk content fp n = some c) : c.code.length ≤ 5000 := by
  simp only [tsNodeChunk] at h
  split at h
  · exact absurd h (by simp)
  · split at h
    · split at h
      · simp only [Option.some.injEq] at h
        subst h
        exact take_length_le _ _
      · exact absurd h (by simp)
    · exact absurd h (by simp)

theorem extractChunksTS_ne_nil (body : List TSNode) (content fp : List Char) :
    extractChunksTS body content fp ≠ [] := by
  simp only [extractChunksTS]
  split
  · simp
  · rename_i h
    intro hnil
    rw [hnil] at h
    simp at h

theorem extractChunksTS_code_le (body : List TSNode) (content fp : List Char) :
    ∀ c ∈ extractChunksTS body content fp, c.code.length ≤ 5000 := by
  intro c hc
  simp only [extractChunksTS] at hc
  split at hc
  · simp at hc; subst hc; exact fileChunk_code_le _ _
  · obtain ⟨n, _, hn⟩ := List.mem_filterMap.mp hc
    exact tsNodeChunk_code_le content fp n c hn

theorem tsRegexLoop_code_lt (content fp : List Char) :
    ∀ (fuel lastIndex : Nat), ∀ c ∈ tsRegexLoop content fp fuel lastIndex,
      c.code.length < 10000 := by
  intro fuel
  induction fuel with
  | zero => intro lastIndex c hc; simp [tsRegexLoop] at hc
  | succ fuel ih =>
    intro lastIndex c hc
    simp only [tsRegexLoop] at hc
    split at hc
    · simp at hc
    · rename_i off kw nm mlen heq
      split at hc
      · rcases List.mem_cons.mp hc with h | h
        · subst h
          rename_i hguard
          calc ((content.drop (lastIndex + off)).take
                  (computeEndTS content kw (lastIndex + off) - (lastIndex + off))).length
              ≤ computeEndTS content kw (lastIndex + off) - (lastIndex + off) :=
                take_length_le _ _
            _ < 10000 := hguard
        · exact ih _ c h
      · exact ih _ c hc

theorem processTypeScriptFile_ne_nil (p : Option (List TSNode)) (content fp : List Char) :
    processTypeScriptFile p content fp ≠ [] := by
  simp only [processTypeScriptFile]
  split
  · simp
  · split
    · simp
    · split
      · simp
      · match p with
        | some body => exact extractChunksTS_ne_nil body content fp
        | none =>
          simp only
          split
          · simp
          · rename_i h
            exact fun hn => h (by simp [hn])

theorem processTypeScriptFile_code_lt (p : Option (List TSNode)) (content fp : List Char) :
    ∀ c ∈ processTypeScriptFile p content fp, c.code.length < 10000 := by
  intro c hc
  simp only [processTypeScriptFile] at hc
  split at hc
  · simp at hc; subst hc
    exact lt_of_le_of_lt (fileChunk_code_le _ _) (by norm_num)
  · split at hc
    · simp at hc; subst hc
      exact lt_of_le_of_lt (fileChunk_code_le _ _) (by norm_num)
    · split at hc
      · simp at hc; subst hc
        exact lt_of_le_of_lt (fileChunk_code_le _ _) (by norm_num)
      · match p with
        | some body =>
          exact lt_of_le_of_lt (extractChunksTS_code_le body content fp c hc) (by norm_num)
        | none =>
          simp only at hc
          split at hc
          · simp at hc; subst hc
            exact lt_of_le_of_lt (fileChunk_code_le _ _) (by norm_num)
          · exact tsRegexLoop_code_lt content fp _ 0 c hc

theorem splitCode_ne_nil (tsP : Option (List TSNode)) (esP : Option (List ESNode))
    (pyM : List PyMatch) (content fp : List Char) :
    splitCode tsP esP pyM content fp ≠ [] := by
  simp only [splitCode]
  split
  · simp
  · split
    · exact processTypeScriptFile_ne_nil tsP content fp
    · split
      · exact processPythonFile_ne_nil pyM content fp
      · split
        · simp
        · split
          · simp
          · match esP with
            | some body =>
              simp only
              split
              · simp
              · rename_i h
                exact fun hn => h (by simp [hn])
            | none => simp

theorem esNodeChunk_code_le (content fp : List Char) (n : ESNode) (c : CodeChunk)
    (h : esNodeChunk content fp n = some c) : c.code.length ≤ 5000 := by
  simp only [esNodeChunk] at h
  split at h
  · split at h
    · exact absurd h (by simp)
    · split at h
      · split at h
        · exact absurd h (by simp)
        · simp only [Option.some.injEq] at h
          subst h
          exact take_length_le _ _
      · exact absurd h (by simp)
  · exact absurd h (by simp)

theorem splitCode_code_lt (tsP : Option (List TSNode)) (esP : Option (List ESNode))
    (pyM : List PyMatch) (content fp : List Char) :
    ∀ c ∈ splitCode tsP esP pyM content fp, c.code.length < 10000 := by
  intro c hc
  simp only [splitCode] at hc
  split at hc
  · simp at hc; subst hc; simp
  · split at hc
    · exact processTypeScriptFile_code_lt tsP content fp c hc
    · split at hc
      · exact lt_of_le_of_lt (processPythonFile_code_le pyM content fp c hc) (by norm_num)
      · split at hc
        · simp at hc; subst hc
          exact lt_of_le_of_lt (fileChunk_code_le _ _) (by norm_num)
        · split at hc
          · simp at hc; subst hc
            exact lt_of_le_of_lt (fileChunk_code_le _ _) (by norm_num)
          · match esP with
            | some body =>
              simp only at hc
              split at hc
              · simp at hc; subst hc
                exact lt_of_le_of_lt (fileChunk_code_le _ _) (by norm_num)
              · obtain ⟨n, _, hn⟩ := List.mem_filterMap.mp hc
                exact lt_of_le_of_lt (esNodeChunk_code_le content fp n c hn) (by norm_num)
            | none =>
              simp at hc; subst hc
              exact lt_of_le_of_lt (fileChunk_code_le _ _) (by norm_num)

/- ### Evaluation of the regex fallback on the C1 counterexample -/

theorem cexTsContent_cons :
    cexTsContent =
      'c' :: 'l' :: 'a' :: 's' :: 's' :: ' ' :: 'A' :: ' ' :: '\x7b' ::
        (List.replicate 5000 '(' ++ ['\x7d']) := rfl

theorem cexTsContent_length : cexTsContent.length = 5010 := by
  simp only [cexTsContent, List.length_append, List.length_replicate]
  norm_num

theorem stripOpt_export_c (r : List Char) :
    stripOpt ['e', 'x', 'p', 'o', 'r', 't'] ('c' :: r) = 'c' :: r := rfl

theorem stripOpt_default_c (r : List Char) :
    stripOpt ['d', 'e', 'f', 'a', 'u', 'l', 't'] ('c' :: r) = 'c' :: r := rfl

theorem stripKw_cex (r : List Char) :
    stripKwName tsKeywords
      ('c' :: 'l' :: 'a' :: 's' :: 's' :: ' ' :: 'A' :: ' ' :: '\x7b' :: r) =
      some ("class".data, ['A'], ' ' :: '\x7b' :: r) := rfl

theorem matchAtHead_cex (r : List Char) :
    matchAtHead ('c' :: 'l' :: 'a' :: 's' :: 's' :: ' ' :: 'A' :: ' ' :: '\x7b' :: r) =
      some ("class".data, ['A'], 7) := by
  simp only [matchAtHead, stripOpt_export_c, stripOpt_default_c, stripKw_cex]
  refine congrArg some ?_
  refine congrArg (Prod.mk _) ?_
  refine congrArg (Prod.mk _) ?_
  simp only [List.length_cons]
  omega

theorem matchFrom_cex (r : List Char) :
    matchFrom ('c' :: 'l' :: 'a' :: 's' :: 's' :: ' ' :: 'A' :: ' ' :: '\x7b' :: r) =
      some (0, "class".data, ['A'], 7) := by
  simp only [matchFrom, matchAtHead_cex]

theorem matchAtHead_none_of_head (c : Char) (r : List Char)
    (h1 : c ≠ 'e') (h2 : c ≠ 'd') (h3 : c ≠ 'c') (h4 : c ≠ 'i')
    (h5 : c ≠ 't') (h6 : c ≠ 'f') (h7 : c ≠ 'l') (h8 : c ≠ 'v') :
    matchAtHead (c :: r) = none := by
  have he : stripOpt "export".data (c :: r) = c :: r := by
    simp [stripOpt, stripLit, show "export".data = ['e','x','p','o','r','t'] from rfl, h1]
  have hd : stripOpt "default".data (c :: r) = c :: r := by
    simp [stripOpt, stripLit, show "default".data = ['d','e','f','a','u','l','t'] from rfl, h2]
  have hk : stripKwName tsKeywords (c :: r) = none := by
    simp [stripKwName, tsKeywords, stripLit,
      show "class".data = ['c','l','a','s','s'] from rfl,
      show "interface".data = ['i','n','t','e','r','f','a','c','e'] from rfl,
      show "type".data = ['t','y','p','e'] from rfl,
      show "enum".data = ['e','n','u','m'] from rfl,
      show "function".data = ['f','u','n','c','t','i','o','n'] from rfl,
      show "const".data = ['c','o','n','s','t'] from rfl,
      show "let".data = ['l','e','t'] from rfl,
      show "var".data = ['v','a','r'] from rfl,
      h1, h3, h4, h5, h6, h7, h8]
  simp [matchAtHead, he, hd, hk]

theorem matchFrom_none_of (l : List Char)
    (h : ∀ c ∈ l, c = ' ' ∨ c = '(' ∨ c = '\x7b' ∨ c = '\x7d') :
    matchFrom l = none := by
  induction l with
  | nil => rfl
  | cons c cs ih =>
    have hc := h c (by simp)
    have hm : matchAtHead (c :: cs) = none := by
      rcases hc with rfl | rfl | rfl | rfl <;>
        exact matchAtHead_none_of_head _ _ (by decide) (by decide) (by decide)
          (by decide) (by decide) (by decide) (by decide) (by decide)
    simp [matchFrom, hm, ih (fun c hc => h c (by simp [hc]))]

theorem braceScan_replicate_paren (r : List Char) (d : Int) :
    ∀ (n i : Nat),
      braceScan (List.replicate n '(' ++ r) d i = braceScan r d (i + n)
  | 0, i => by simp
  | n + 1, i => by
    rw [List.replicate_succ, List.cons_append]
    show (if ('(' : Char) = '\x7b' then
        braceScan (List.replicate n '(' ++ r) (d + 1) (i + 1)
      else if ('(' : Char) = '\x7d' then
        if d - 1 = 0 then some (i + 1)
        else braceScan (List.replicate n '(' ++ r) (d - 1) (i + 1)
      else braceScan (List.replicate n '(' ++ r) d (i + 1)) =
      braceScan r d (i + (n + 1))
    rw [if_neg (by decide), if_neg (by decide),
      braceScan_replicate_paren r d n (i + 1)]
    congr 1
    omega

theorem braceScan_cons_other (c : Char) (h1 : c ≠ '\x7b') (h2 : c ≠ '\x7d')
    (r : List Char) (d : Int) (i : Nat) :
    braceScan (c :: r) d i = braceScan r d (i + 1) := by
  simp [braceScan, h1, h2]

theorem braceScan_cons_open (r : List Char) (d : Int) (i : Nat) :
    braceScan ('\x7b' :: r) d i = braceScan r (d + 1) (i + 1) := by
  simp [braceScan]

theorem braceScan_cex : braceScan cexTsContent 0 0 = some 5010 := by
  rw [cexTsContent_cons]
  rw [braceScan_cons_other 'c' (by decide) (by decide),
      braceScan_cons_other 'l' (by decide) (by decide),
      braceScan_cons_other 'a' (by decide) (by decide),
      braceScan_cons_other 's' (by decide) (by decide),
      braceScan_cons_other 's' (by decide) (by decide),
      braceScan_cons_other ' ' (by decide) (by decide),
      braceScan_cons_other 'A' (by decide) (by decide),
      braceScan_cons_other ' ' (by decide) (by decide),
      braceScan_cons_open,
      braceScan_replicate_paren]
  norm_num
  rfl

theorem computeEndTS_cex : computeEndTS cexTsContent "class".data 0 = 5010 := by
  simp only [computeEndTS]
  rw [if_pos (by rfl), List.drop_zero, braceScan_cex]

theorem cexTsContent_drop7 :
    cexTsContent.drop 7 = ' ' :: '\x7b' :: (List.replicate 5000 '(' ++ ['\x7d']) := rfl

theorem matchFrom_cex_after :
    matchFrom (cexTsContent.drop 7) = none := by
  rw [cexTsContent_drop7]
  apply matchFrom_none_of
  intro c hc
  simp only [List.mem_cons, List.mem_append, List.mem_replicate] at hc
  rcases hc with rfl | rfl | h | h
  · left; rfl
  · right; right; left; rfl
  · right; left; exact h.2
  · simp at h; right; right; right; exact h

theorem tsRegexLoop_stop (content fp : List Char) (fuel li : Nat)
    (h : matchFrom (content.drop li) = none) :
    tsRegexLoop content fp (fuel + 1) li = [] := by
  simp only [tsRegexLoop, h]

theorem tsRegexLoop_step0 (content fp : List Char) (fuel mlen : Nat)
    (kw nm : List Char)
    (h : matchFrom content = some (0, kw, nm, mlen)) :
    tsRegexLoop content fp (fuel + 1) 0 =
      if computeEndTS content kw 0 < 10000 then
        ⟨capDecl kw, nm, content.take (computeEndTS content kw 0), fp⟩ ::
          tsRegexLoop content fp fuel mlen
      else tsRegexLoop content fp fuel mlen := by
  have h0 : content.drop 0 = content := List.drop_zero content
  simp only [tsRegexLoop, h0, h, Nat.add_zero, Nat.zero_add, Nat.sub_zero]

theorem tsRegexChunks_cex (fp : List Char) :
    tsRegexChunks cexTsContent fp =
      [⟨"ClassDeclaration".data, ['A'], cexTsContent, fp⟩] := by
  have hmf : matchFrom cexTsContent = some (0, "class".data, ['A'], 7) := by
    rw [cexTsContent_cons]
    exact matchFrom_cex _
  have h5010 : (5010 : Nat) = 5009 + 1 := by norm_num
  have hrest : tsRegexLoop cexTsContent fp 5010 7 = [] := by
    rw [h5010]
    exact tsRegexLoop_stop cexTsContent fp 5009 7 matchFrom_cex_after
  have htake : cexTsContent.take 5010 = cexTsContent := by
    rw [← cexTsContent_length]
    exact List.take_length cexTsContent
  rw [tsRegexChunks, cexTsContent_length,
    tsRegexLoop_step0 cexTsContent fp 5010 7 "class".data ['A'] hmf,
    computeEndTS_cex, hrest, htake, if_pos (by norm_num)]
  rfl

theorem tsBinaryCheck_cex : tsBinaryCheck cexTsContent = false := by
  have hchars : ∀ c ∈ cexTsContent,
      c = 'c' ∨ c = 'l' ∨ c = 'a' ∨ c = 's' ∨ c = ' ' ∨ c = 'A' ∨
      c = '\x7b' ∨ c = '(' ∨ c = '\x7d' := by
    intro c hc
    rw [cexTsContent_cons] at hc
    simp only [List.mem_cons, List.mem_append, List.mem_replicate] at hc
    tauto
  simp only [tsBinaryCheck, Bool.or_eq_false_iff]
  constructor
  · rw [List.any_eq_false]
    intro c hc
    rcases hchars c hc with rfl|rfl|rfl|rfl|rfl|rfl|rfl|rfl|rfl <;> decide
  · rw [List.any_eq_false]
    intro c hc
    have hc' : c ∈ cexTsContent := List.mem_of_mem_take hc
    rcases hchars c hc' with rfl|rfl|rfl|rfl|rfl|rfl|rfl|rfl|rfl <;> decide

theorem processTypeScriptFile_cex :
    processTypeScriptFile none cexTsContent cexTsPath =
      [⟨"ClassDeclaration".data, ['A'], cexTsContent, cexTsPath⟩] := by
  have h1 : cexTsContent.isEmpty = false := rfl
  have h2 : ¬ cexTsContent.length > 500000 := by
    rw [cexTsContent_length]; norm_num
  simp only [processTypeScriptFile, h1, Bool.false_eq_true, if_false,
    if_neg h2, tsBinaryCheck_cex, tsRegexChunks_cex]
  rfl

/- ## Claim C1 -/

/-- Claim C1, counterexample: on the 5010-character class declaration
`cexTsContent` (a file both TypeScript parsers reject, so the regex
fallback runs), `processTypeScriptFile` returns a chunk whose code is
5010 characters long — the claim's bound of 5000 is violated because the
regex fallback does not truncate chunk code. -/
theorem claim_C1_counterexample :
    ¬ ∀ c ∈ processTypeScriptFile none cexTsContent cexTsPath,
        c.code.length ≤ 5000 := by
  intro h
  have hmem : (⟨"ClassDeclaration".data, ['A'], cexTsContent, cexTsPath⟩ : CodeChunk) ∈
      processTypeScriptFile none cexTsContent cexTsPath := by
    rw [processTypeScriptFile_cex]
    simp
  have hlen := h _ hmem
  rw [cexTsContent_length] at hlen
  norm_num at hlen

/-- Claim C1 (amended): for every content, file path, parse outcome and
regex match list, each of `processPythonFile`, `processTypeScriptFile` and
`splitCode` returns a non-empty chunk list; every chunk produced by
`processPythonFile` has code of at most 5000 characters, while chunks
produced by `processTypeScriptFile` (and hence by `splitCode`, which
delegates `.ts`/`.tsx` files to it) are only guaranteed shorter than
10000 characters, because the TypeScript regex fallback bounds the
declaration extent by 10000 but does not truncate to 5000. -/
theorem claim_C1_amended (content fp : List Char) (tsP : Option (List TSNode))
    (esP : Option (List ESNode)) (pyM : List PyMatch) :
    (processPythonFile pyM content fp ≠ [] ∧
      ∀ c ∈ processPythonFile pyM content fp, c.code.length ≤ 5000) ∧
    (processTypeScriptFile tsP content fp ≠ [] ∧
      ∀ c ∈ processTypeScriptFile tsP content fp, c.code.length < 10000) ∧
    (splitCode tsP esP pyM content fp ≠ [] ∧
      ∀ c ∈ splitCode tsP esP pyM content fp, c.code.length < 10000) :=
  ⟨⟨processPythonFile_ne_nil pyM content fp, processPythonFile_code_le pyM content fp⟩,
   ⟨processTypeScriptFile_ne_nil tsP content fp, processTypeScriptFile_code_lt tsP content fp⟩,
   ⟨splitCode_ne_nil tsP esP pyM content fp, splitCode_code_lt tsP esP pyM content fp⟩⟩

/-- Witness for the amended claim C1 at a concrete input. -/
theorem claim_C1_witness :
    (processPythonFile [] ['x'] "a.py".data ≠ [] ∧
      ∀ c ∈ processPythonFile [] ['x'] "a.py".data, c.code.length ≤ 5000) ∧
    (processTypeScriptFile none ['x'] "a.py".data ≠ [] ∧
      ∀ c ∈ processTypeScriptFile none ['x'] "a.py".data, c.code.length < 10000) ∧
    (splitCode none none [] ['x'] "a.py".data ≠ [] ∧
      ∀ c ∈ splitCode none none [] ['x'] "a.py".data, c.code.length < 10000) :=
  claim_C1_amended ['x'] "a.py".data none none []

/- ## Lemmas about the embedding pipeline -/

theorem embedBatch_map (f : List Char → List ℝ) (batch : List CodeChunk) :
    ∀ i, embedBatch batch ((batch.map (·.code)).map f) i = embedSpec f batch i := by
  induction batch with
  | nil => intro i; rfl
  | cons c cs ih =>
    intro i
    simp only [List.map_cons, embedBatch, embedSpec]
    rw [ih (i + 1)]

theorem embedSpec_append (f : List Char → List ℝ) (as bs : List CodeChunk) :
    ∀ i, embedSpec f (as ++ bs) i = embedSpec f as i ++ embedSpec f bs (i + as.length) := by
  induction as with
  | nil => intro i; simp [embedSpec]
  | cons a as ih =>
    intro i
    simp only [List.cons_append, embedSpec, List.length_cons]
    rw [List.append_eq, ih (i + 1)]
    rw [show i + 1 + as.length = i + (as.length + 1) from by omega]

theorem embedChunksAux_eq (f : List Char → List ℝ) :
    ∀ (n : Nat) (cs : List CodeChunk), cs.length ≤ n →
      ∀ i, embedChunksAux f cs i = embedSpec f cs i := by
  intro n
  induction n with
  | zero =>
    intro cs hcs i
    have : cs = [] := List.eq_nil_of_length_eq_zero (Nat.le_zero.mp hcs)
    subst this
    simp [embedChunksAux, embedSpec]
  | succ n ih =>
    intro cs hcs i
    match cs with
    | [] => simp [embedChunksAux, embedSpec]
    | c :: cs' =>
      simp only [List.length_cons] at hcs
      rw [embedChunksAux]
      rw [embedBatch_map f ((c :: cs').take 100) i]
      rw [ih ((c :: cs').drop 100)
        (by simp only [List.length_drop, List.length_cons]; omega) (i + 100)]
      conv_rhs => rw [← List.take_append_drop 100 (c :: cs')]
      rw [embedSpec_append]
      by_cases h : (c :: cs').length ≤ 100
      · rw [List.drop_eq_nil_of_le h]
        simp [embedSpec]
      · have hlen : ((c :: cs').take 100).length = 100 := by
          rw [List.length_take]
          simp only [List.length_cons]
          simp only [List.length_cons] at h
          omega
        rw [hlen]

theorem embedChunks_eq_spec (f : List Char → List ℝ) (chunks : List CodeChunk) :
    embedChunks f chunks = embedSpec f chunks 0 :=
  embedChunksAux_eq f chunks.length chunks (le_refl _) 0

theorem embedSpec_length (f : List Char → List ℝ) (cs : List CodeChunk) :
    ∀ i, (embedSpec f cs i).length = cs.length := by
  induction cs with
  | nil => intro i; rfl
  | cons c cs ih => intro i; simp [embedSpec, ih (i + 1)]

theorem embedSpec_getD (f : List Char → List ℝ) (cs : List CodeChunk) :
    ∀ (i k : Nat), k < cs.length →
      (embedSpec f cs i).getD k defEmbChunk =
        mkEmb (cs.getD k defCodeChunk) (i + k) (f ((cs.getD k defCodeChunk).code)) := by
  induction cs with
  | nil => intro i k hk; simp at hk
  | cons c cs ih =>
    intro i k hk
    match k with
    | 0 => rfl
    | k + 1 =>
      simp only [embedSpec, List.getD_cons_succ]
      rw [ih (i + 1) k (by simpa using Nat.lt_of_succ_lt_succ hk)]
      congr 1
      omega

/- ### Distinctness of ids -/

theorem takeWhile_append_eq (p : Char → Bool) (x : Char) (hx : p x = false) :
    ∀ (l r : List Char), (∀ c ∈ l, p c = true) →
      (l ++ x :: r).takeWhile p = l := by
  intro l r
  induction l with
  | nil => intro _; simp [List.takeWhile, hx]
  | cons a as ih =>
    intro h
    simp only [List.cons_append, List.takeWhile]
    rw [h a (by simp)]
    simp only [List.cons.injEq, true_and]
    exact ih (fun c hc => h c (by simp [hc]))

theorem natRepr_digits (n : Nat) : ∀ c ∈ natRepr n, c ≠ '-' := by
  intro c hc
  unfold natRepr at hc
  split at hc
  · simp at hc; subst hc; decide
  · rw [List.mem_reverse] at hc
    obtain ⟨d, hd, rfl⟩ := List.mem_map.mp hc
    have hlt : d < 10 := Nat.digits_lt_base (by norm_num) hd
    interval_cases d <;> decide

theorem extractIdx_mkId (c : CodeChunk) (n : Nat) :
    extractIdx (mkId c n) = natRepr n := by
  have hside : ∀ ch ∈ (natRepr n).reverse, (fun c => !(c = '-')) ch = true := by
    intro ch hch
    rw [List.mem_reverse] at hch
    simpa using natRepr_digits n ch hch
  have ht := takeWhile_append_eq (fun c => !(c = '-')) '-' (by decide)
    ((natRepr n).reverse) ((idHash c.path c.name).reverse) hside
  unfold extractIdx mkId
  rw [List.reverse_append, List.reverse_cons, List.append_assoc,
    List.singleton_append, ht, List.reverse_reverse]

theorem digitChar_inj : ∀ (a : Nat), a < 10 → ∀ (b : Nat), b < 10 →
    Nat.digitChar a = Nat.digitChar b → a = b := by
  decide

theorem map_digitChar_inj :
    ∀ (l₁ l₂ : List Nat), (∀ d ∈ l₁, d < 10) → (∀ d ∈ l₂, d < 10) →
      l₁.map Nat.digitChar = l₂.map Nat.digitChar → l₁ = l₂ := by
  intro l₁
  induction l₁ with
  | nil =>
    intro l₂ _ _ h
    match l₂ with
    | [] => rfl
    | _ :: _ => simp at h
  | cons a as ih =>
    intro l₂ h₁ h₂ h
    match l₂ with
    | [] => simp at h
    | b :: bs =>
      simp only [List.map_cons, List.cons.injEq] at h
      have hab : a = b :=
        digitChar_inj a (h₁ a (by simp)) b (h₂ b (by simp)) h.1
      rw [hab, ih bs (fun d hd => h₁ d (by simp [hd])) (fun d hd => h₂ d (by simp [hd])) h.2]

theorem natRepr_inj : ∀ (a b : Nat), natRepr a = natRepr b → a = b := by
  intro a b h
  unfold natRepr at h
  by_cases ha : a = 0 <;> by_cases hb : b = 0
  · rw [ha, hb]
  · rw [if_pos ha, if_neg hb] at h
    have : (Nat.digits 10 b).map Nat.digitChar = ['0'] := by
      have := congrArg List.reverse h
      simpa using this.symm
    have hb' : Nat.digits 10 b = [0] := by
      have h10 : ∀ d ∈ Nat.digits 10 b, d < 10 :=
        fun d hd => Nat.digits_lt_base (by norm_num) hd
      exact map_digitChar_inj (Nat.digits 10 b) [0] h10 (by simp) (by rw [this]; decide)
    have := Nat.ofDigits_digits 10 b
    rw [hb'] at this
    simp [Nat.ofDigits] at this
    exact absurd this.symm hb
  · rw [if_neg ha, if_pos hb] at h
    have : (Nat.digits 10 a).map Nat.digitChar = ['0'] := by
      have := congrArg List.reverse h
      simpa using this
    have ha' : Nat.digits 10 a = [0] := by
      have h10 : ∀ d ∈ Nat.digits 10 a, d < 10 :=
        fun d hd => Nat.digits_lt_base (by norm_num) hd
      exact map_digitChar_inj (Nat.digits 10 a) [0] h10 (by simp) (by rw [this]; decide)
    have := Nat.ofDigits_digits 10 a
    rw [ha'] at this
    simp [Nat.ofDigits] at this
    exact absurd this.symm ha
  · rw [if_neg ha, if_neg hb] at h
    have h' : (Nat.digits 10 a).map Nat.digitChar = (Nat.digits 10 b).map Nat.digitChar := by
      have := congrArg List.reverse h
      simpa using this
    have hd : Nat.digits 10 a = Nat.digits 10 b :=
      map_digitChar_inj _ _ (fun d hd => Nat.digits_lt_base (by norm_num) hd)
        (fun d hd => Nat.digits_lt_base (by norm_num) hd) h'
    have := Nat.ofDigits_digits 10 a
    rw [hd, Nat.ofDigits_digits] at this
    exact this.symm

theorem mkId_inj_pos (c₁ c₂ : CodeChunk) (n₁ n₂ : Nat)
    (h : mkId c₁ n₁ = mkId c₂ n₂) : n₁ = n₂ := by
  have h' := congrArg extractIdx h
  rw [extractIdx_mkId, extractIdx_mkId] at h'
  exact natRepr_inj n₁ n₂ h'

theorem embedSpec_ids_extract (f : List Char → List ℝ) (cs : List CodeChunk) :
    ∀ i, ((embedSpec f cs i).map (·.id)).map extractIdx =
      (List.range cs.length).map (fun k => natRepr (i + k)) := by
  induction cs with
  | nil => intro i; rfl
  | cons c cs ih =>
    intro i
    have hL : ((embedSpec f (c :: cs) i).map (·.id)).map extractIdx =
        extractIdx (mkId c i) :: ((embedSpec f cs (i + 1)).map (·.id)).map extractIdx := rfl
    rw [hL, extractIdx_mkId, ih (i + 1)]
    rw [List.length_cons, List.range_succ_eq_map]
    simp only [List.map_cons, List.map_map, Nat.add_zero]
    congr 1
    apply List.map_congr_left
    intro k _
    simp only [Function.comp_apply]
    congr 1
    omega

theorem embedSpec_ids_nodup (f : List Char → List ℝ) (cs : List CodeChunk) (i : Nat) :
    ((embedSpec f cs i).map (·.id)).Nodup := by
  have h := embedSpec_ids_extract f cs i
  have hnd : ((List.range cs.length).map (fun k => natRepr (i + k))).Nodup := by
    refine List.Nodup.map ?_ (List.nodup_range _)
    intro a b hab
    have := natRepr_inj _ _ hab
    omega
  rw [← h] at hnd
  exact hnd.of_map extractIdx

/- ## Claims C2 and C3 -/

/-- Claim C2: `embedChunks` preserves length and order — for every
provider and chunk list, the output has the chunks' length and the i-th
output's metadata is built from the i-th input chunk (path, type and name
verbatim, code truncated to its first 5000 characters) while its vector is
the provider's vector for that chunk's (full) code. -/
theorem claim_C2 (f : List Char → List ℝ) (chunks : List CodeChunk) :
    (embedChunks f chunks).length = chunks.length ∧
    ∀ i, i < chunks.length →
      ((embedChunks f chunks).getD i defEmbChunk).metadata.path =
          (chunks.getD i defCodeChunk).path ∧
      ((embedChunks f chunks).getD i defEmbChunk).metadata.type =
          (chunks.getD i defCodeChunk).type ∧
      ((embedChunks f chunks).getD i defEmbChunk).metadata.name =
          (chunks.getD i defCodeChunk).name ∧
      ((embedChunks f chunks).getD i defEmbChunk).metadata.code =
          (chunks.getD i defCodeChunk).code.take 5000 ∧
      ((embedChunks f chunks).getD i defEmbChunk).values =
          f ((chunks.getD i defCodeChunk).code) := by
  rw [embedChunks_eq_spec]
  refine ⟨embedSpec_length f chunks 0, ?_⟩
  intro i hi
  rw [embedSpec_getD f chunks 0 i hi]
  exact ⟨rfl, rfl, rfl, rfl, rfl⟩

/-- Witness for claim C2 at a concrete one-chunk input. -/
theorem claim_C2_witness :
    (embedChunks (fun _ => ([] : List ℝ)) [⟨['F'], ['n'], ['x'], ['p']⟩]).length = 1 ∧
    ((embedChunks (fun _ => ([] : List ℝ))
        [⟨['F'], ['n'], ['x'], ['p']⟩]).getD 0 defEmbChunk).metadata.path = ['p'] ∧
    ((embedChunks (fun _ => ([] : List ℝ))
        [⟨['F'], ['n'], ['x'], ['p']⟩]).getD 0 defEmbChunk).values = [] :=
  ⟨(claim_C2 (fun _ => []) [⟨['F'], ['n'], ['x'], ['p']⟩]).1,
   ((claim_C2 (fun _ => []) [⟨['F'], ['n'], ['x'], ['p']⟩]).2 0 (by decide)).1,
   ((claim_C2 (fun _ => []) [⟨['F'], ['n'], ['x'], ['p']⟩]).2 0 (by decide)).2.2.2.2⟩

/-- Claim C3: for every provider and chunk list the ids produced by
`embedChunks` are pairwise distinct — even when the same (path, name) pair
repeats — and the id at position `i` is the 12-character base64 hash of
`path-name` followed by a dash and the decimal position. -/
theorem claim_C3 (f : List Char → List ℝ) (chunks : List CodeChunk) :
    ((embedChunks f chunks).map (·.id)).Nodup ∧
    ∀ i, i < chunks.length →
      ((embedChunks f chunks).getD i defEmbChunk).id =
        idHash (chunks.getD i defCodeChunk).path (chunks.getD i defCodeChunk).name ++
          '-' :: natRepr i := by
  rw [embedChunks_eq_spec]
  refine ⟨embedSpec_ids_nodup f chunks 0, ?_⟩
  intro i hi
  rw [embedSpec_getD f chunks 0 i hi]
  simp only [mkEmb, mkId, Nat.zero_add]

/-- Witness for claim C3 on a two-chunk input whose chunks share the same
path and name. -/
theorem claim_C3_witness :
    ((embedChunks (fun _ => ([] : List ℝ))
        [⟨['F'], ['n'], ['x'], ['p']⟩, ⟨['F'], ['n'], ['x'], ['p']⟩]).map (·.id)).Nodup ∧
    ((embedChunks (fun _ => ([] : List ℝ))
        [⟨['F'], ['n'], ['x'], ['p']⟩, ⟨['F'], ['n'], ['x'], ['p']⟩]).getD 1 defEmbChunk).id =
      idHash ['p'] ['n'] ++ '-' :: natRepr 1 :=
  ⟨(claim_C3 (fun _ => []) [⟨['F'], ['n'], ['x'], ['p']⟩, ⟨['F'], ['n'], ['x'], ['p']⟩]).1,
   (claim_C3 (fun _ => []) [⟨['F'], ['n'], ['x'], ['p']⟩, ⟨['F'], ['n'], ['x'], ['p']⟩]).2 1
     (by decide)⟩

/- ## Claim C5 -/

/-- Claim C5, counterexample: persisting 3 chunks at time 1 and then 5
chunks at time 2 for the same index leaves `created = 2` (not the first
call's 1) and `chunkCount = 5` (not the accumulated 8): `meta.json` is
rewritten from scratch on every persist call. -/
theorem claim_C5_counterexample :
    ¬ ((storeEmbeddingsLocally
          (some (storeEmbeddingsLocally none ['i'] 1
            (List.replicate 3 defEmbChunk)).meta)
          ['i'] 2 (List.replicate 5 defEmbChunk)).meta.created =
        (storeEmbeddingsLocally none ['i'] 1
          (List.replicate 3 defEmbChunk)).meta.created ∧
       (storeEmbeddingsLocally
          (some (storeEmbeddingsLocally none ['i'] 1
            (List.replicate 3 defEmbChunk)).meta)
          ['i'] 2 (List.replicate 5 defEmbChunk)).meta.chunkCount = 3 + 5) := by
  intro h
  have h1 : (storeEmbeddingsLocally
      (some (storeEmbeddingsLocally none ['i'] 1
        (List.replicate 3 defEmbChunk)).meta)
      ['i'] 2 (List.replicate 5 defEmbChunk)).meta.created = 2 := rfl
  have h2 : (storeEmbeddingsLocally none ['i'] 1
      (List.replicate 3 defEmbChunk)).meta.created = 1 := rfl
  rw [h1, h2] at h
  exact absurd h.1 (by norm_num)

/-- Claim C5 (amended): every persist call rewrites the IndexMetadata
whole — `created` and `updated` are both set to the call's current time,
`chunkCount` is set to the call's own chunk count, and the result does not
depend on the previously stored metadata at all. -/
theorem claim_C5_amended (prevMeta : Option IndexMeta) (indexName : List Char)
    (now : Nat) (chunks : List EmbChunk) :
    (storeEmbeddingsLocally prevMeta indexName now chunks).meta.created = now ∧
    (storeEmbeddingsLocally prevMeta indexName now chunks).meta.updated = now ∧
    (storeEmbeddingsLocally prevMeta indexName now chunks).meta.chunkCount =
      chunks.length ∧
    storeEmbeddingsLocally prevMeta indexName now chunks =
      storeEmbeddingsLocally none indexName now chunks :=
  ⟨rfl, rfl, rfl, rfl⟩

/- ## Claim C6 -/

theorem sumProducts_comm : ∀ (a b : List ℝ), sumProducts a b = sumProducts b a := by
  intro a
  induction a with
  | nil =>
    intro b
    match b with
    | [] => rfl
    | _ :: _ => rfl
  | cons x as ih =>
    intro b
    match b with
    | [] => rfl
    | y :: bs =>
      simp only [sumProducts]
      rw [ih bs, mul_comm]

theorem sumProducts_self_nonneg : ∀ (a : List ℝ), 0 ≤ sumProducts a a := by
  intro a
  induction a with
  | nil => simp [sumProducts]
  | cons x as ih =>
    simp only [sumProducts]
    have := mul_self_nonneg x
    linarith

theorem sumProducts_eq_sum : ∀ (a b : List ℝ), a.length = b.length →
    sumProducts a b = ∑ i ∈ Finset.range a.length, a.getD i 0 * b.getD i 0 := by
  intro a
  induction a with
  | nil =>
    intro b h
    simp [sumProducts]
  | cons x as ih =>
    intro b h
    match b with
    | [] => simp at h
    | y :: bs =>
      simp only [List.length_cons] at h
      simp only [sumProducts, List.length_cons]
      rw [Finset.sum_range_succ']
      simp only [List.getD_cons_succ, List.getD_cons_zero]
      rw [ih bs (by omega)]
      ring

theorem sumProducts_sq_le (a b : List ℝ) (h : a.length = b.length) :
    (sumProducts a b) ^ 2 ≤ sumProducts a a * sumProducts b b := by
  rw [sumProducts_eq_sum a b h, sumProducts_eq_sum a a rfl, sumProducts_eq_sum b b rfl, ← h]
  have hcs := Finset.sum_mul_sq_le_sq_mul_sq (Finset.range a.length)
    (fun i => a.getD i 0) (fun i => b.getD i 0)
  calc (∑ i ∈ Finset.range a.length, a.getD i 0 * b.getD i 0) ^ 2
      ≤ (∑ i ∈ Finset.range a.length, a.getD i 0 ^ 2) *
          ∑ i ∈ Finset.range a.length, b.getD i 0 ^ 2 := hcs
    _ = (∑ i ∈ Finset.range a.length, a.getD i 0 * a.getD i 0) *
          ∑ i ∈ Finset.range a.length, b.getD i 0 * b.getD i 0 := by
        simp [pow_two]

/-- Claim C6: for equal-dimension vectors, `calculateCosineSimilarity` is
symmetric, its value lies in `[-1, 1]`, and it is exactly 0 when either
accumulated norm is 0 (no division by zero is possible). -/
theorem claim_C6 (a b : List ℝ) (h : a.length = b.length) :
    calculateCosineSimilarity a b = calculateCosineSimilarity b a ∧
    -1 ≤ calculateCosineSimilarity a b ∧
    calculateCosineSimilarity a b ≤ 1 ∧
    ((sumProducts a a = 0 ∨ sumProducts b b = 0) →
      calculateCosineSimilarity a b = 0) := by
  have hsym : calculateCosineSimilarity a b = calculateCosineSimilarity b a := by
    simp only [calculateCosineSimilarity]
    rw [sumProducts_comm a b]
    by_cases hz : sumProducts a a = 0 ∨ sumProducts b b = 0
    · rw [if_pos hz, if_pos (Or.symm hz)]
    · rw [if_neg hz, if_neg (fun hc => hz (Or.symm hc))]
      ring
  have hzero : (sumProducts a a = 0 ∨ sumProducts b b = 0) →
      calculateCosineSimilarity a b = 0 := by
    intro hz
    simp only [calculateCosineSimilarity]
    rw [if_pos hz]
  refine ⟨hsym, ?_, ?_, hzero⟩ <;>
  · by_cases hz : sumProducts a a = 0 ∨ sumProducts b b = 0
    · rw [hzero hz]; norm_num
    · push_neg at hz
      have hA : 0 < sumProducts a a :=
        lt_of_le_of_ne (sumProducts_self_nonneg a) (Ne.symm hz.1)
      have hB : 0 < sumProducts b b :=
        lt_of_le_of_ne (sumProducts_self_nonneg b) (Ne.symm hz.2)
      have hs : 0 < Real.sqrt (sumProducts a a) * Real.sqrt (sumProducts b b) :=
        mul_pos (Real.sqrt_pos.mpr hA) (Real.sqrt_pos.mpr hB)
      have habs : |sumProducts a b| ≤
          Real.sqrt (sumProducts a a) * Real.sqrt (sumProducts b b) := by
        rw [← Real.sqrt_sq_eq_abs, ← Real.sqrt_mul (sumProducts_self_nonneg a)]
        exact Real.sqrt_le_sqrt (sumProducts_sq_le a b h)
      have hcos : calculateCosineSimilarity a b =
          sumProducts a b /
            (Real.sqrt (sumProducts a a) * Real.sqrt (sumProducts b b)) := by
        simp only [calculateCosineSimilarity]
        rw [if_neg (by push_neg; exact hz)]
      rw [hcos]
      rw [abs_le] at habs
      first
      | (rw [le_div_iff₀ hs]; linarith [habs.1])
      | (rw [div_le_one hs]; exact habs.2)

/-- Witness for claim C6 at concrete two-dimensional vectors. -/
theorem claim_C6_witness :
    calculateCosineSimilarity [(1 : ℝ), 0] [(0 : ℝ), 1] =
        calculateCosineSimilarity [(0 : ℝ), 1] [(1 : ℝ), 0] ∧
    -1 ≤ calculateCosineSimilarity [(1 : ℝ), 0] [(0 : ℝ), 1] ∧
    calculateCosineSimilarity [(1 : ℝ), 0] [(0 : ℝ), 1] ≤ 1 ∧
    ((sumProducts [(1 : ℝ), 0] [(1 : ℝ), 0] = 0 ∨
       sumProducts [(0 : ℝ), 1] [(0 : ℝ), 1] = 0) →
      calculateCosineSimilarity [(1 : ℝ), 0] [(0 : ℝ), 1] = 0) :=
  claim_C6 [(1 : ℝ), 0] [(0 : ℝ), 1] rfl

/- ## Lemmas about the local persistence (claim C4) -/

theorem pathInvAux_cons (off : Nat) (e : List Char × List Char)
    (es : List (List Char × List Char)) (h : pathInvAux off (e :: es)) :
    e.2 = 'p' :: natRepr off ∧ pathInvAux (off + 1) es := by
  constructor
  · have := h 0 (by simp)
    simpa using this
  · intro k hk
    have := h (k + 1) (by simpa using Nat.succ_lt_succ hk)
    simpa [Nat.add_assoc, Nat.add_comm 1 k] using this

theorem find?_by_value : ∀ (off : Nat) (table : List (List Char × List Char)),
    pathInvAux off table → ∀ (p v : List Char), (p, v) ∈ table →
      table.find? (fun e => e.2 == v) = some (p, v) := by
  intro off table
  induction table generalizing off with
  | nil => intro _ p v hmem; simp at hmem
  | cons e es ih =>
    intro hW p v hmem
    obtain ⟨he, htl⟩ := pathInvAux_cons off e es hW
    rcases List.mem_cons.mp hmem with heq | htlmem
    · rw [← heq]
      apply List.find?_cons_of_pos
      simp
    · have hvtail : ∃ j, ∃ hj : j < es.length, es[j] = (p, v) := by
        obtain ⟨j, hj, hjv⟩ := List.getElem_of_mem htlmem
        exact ⟨j, hj, hjv⟩
      obtain ⟨j, hj, hjv⟩ := hvtail
      have hv : v = 'p' :: natRepr (off + 1 + j) := by
        have := htl j hj
        rw [hjv] at this
        exact this
      have hne : (e.2 == v) = false := by
        rw [he, hv]
        by_contra hcon
        simp only [Bool.not_eq_false, beq_iff_eq, List.cons.injEq, true_and] at hcon
        have := natRepr_inj _ _ hcon
        omega
      rw [List.find?_cons_of_neg _ (by simp [hne])]
      exact ih (off + 1) htl p v htlmem

theorem getPathId_inv (st : PathState) (p : List Char) (hinv : pathInv st) :
    pathInv (getPathId st p).2 := by
  simp only [getPathId]
  split
  · exact hinv
  · refine ⟨by simp [hinv.1], ?_⟩
    intro k hk
    simp only [List.length_append, List.length_cons, List.length_nil] at hk
    by_cases hlt : k < st.table.length
    · rw [List.getElem_append_left hlt]
      exact hinv.2 k hlt
    · have hk' : k = st.table.length := by omega
      subst hk'
      rw [List.getElem_append_right (le_refl _)]
      simp [hinv.1]

theorem getPathId_ext (st : PathState) (p : List Char) :
    ∃ ext, (getPathId st p).2.table = st.table ++ ext := by
  simp only [getPathId]
  split
  · exact ⟨[], by simp⟩
  · exact ⟨[(p, 'p' :: natRepr st.ctr)], rfl⟩

theorem getPathId_mem (st : PathState) (p : List Char) :
    (p, (getPathId st p).1) ∈ (getPathId st p).2.table := by
  simp only [getPathId]
  split
  · rename_i e heq
    have hmem := List.mem_of_find?_eq_some heq
    have hp := List.find?_some heq
    simp only [beq_iff_eq] at hp
    subst hp
    simpa using hmem
  · simp

theorem storeChunks_length : ∀ (cs : List EmbChunk) (st : PathState),
    (storeChunks cs st).1.length = cs.length := by
  intro cs
  induction cs with
  | nil => intro st; rfl
  | cons c cs ih =>
    intro st
    simp only [storeChunks]
    simp [ih]

theorem storeChunks_ext : ∀ (cs : List EmbChunk) (st : PathState),
    ∃ ext, (storeChunks cs st).2.table = st.table ++ ext := by
  intro cs
  induction cs with
  | nil => intro st; exact ⟨[], by simp [storeChunks]⟩
  | cons c cs ih =>
    intro st
    obtain ⟨e₁, he₁⟩ := getPathId_ext st c.metadata.path
    obtain ⟨e₂, he₂⟩ := ih (storeChunk st c).2
    refine ⟨e₁ ++ e₂, ?_⟩
    have hst' : (storeChunk st c).2 = (getPathId st c.metadata.path).2 := rfl
    rw [show (storeChunks (c :: cs) st).2 = (storeChunks cs (storeChunk st c).2).2 from rfl]
    rw [he₂, hst', he₁, List.append_assoc]

theorem storeChunks_inv : ∀ (cs : List EmbChunk) (st : PathState),
    pathInv st → pathInv (storeChunks cs st).2 := by
  intro cs
  induction cs with
  | nil => intro st h; exact h
  | cons c cs ih =>
    intro st h
    have h' : pathInv (storeChunk st c).2 := getPathId_inv st c.metadata.path h
    exact ih _ h'

theorem storeChunks_entry : ∀ (cs : List EmbChunk) (st : PathState),
    ∀ k, k < cs.length →
      ∃ pid,
        (storeChunks cs st).1.getD k (defVecEntry, defMetaEntry) =
          (⟨(cs.getD k defEmbChunk).id, (cs.getD k defEmbChunk).values⟩,
           ⟨(cs.getD k defEmbChunk).id,
            ⟨pid, (cs.getD k defEmbChunk).metadata.type,
             (cs.getD k defEmbChunk).metadata.name,
             (cs.getD k defEmbChunk).metadata.code⟩⟩) ∧
        ((cs.getD k defEmbChunk).metadata.path, pid) ∈ (storeChunks cs st).2.table := by
  intro cs
  induction cs with
  | nil => intro st k hk; simp at hk
  | cons c cs ih =>
    intro st k hk
    match k with
    | 0 =>
      refine ⟨(getPathId st c.metadata.path).1, ?_, ?_⟩
      · rfl
      · have hmem := getPathId_mem st c.metadata.path
        obtain ⟨ext, hext⟩ := storeChunks_ext cs (storeChunk st c).2
        rw [show (storeChunks (c :: cs) st).2 = (storeChunks cs (storeChunk st c).2).2 from rfl,
          hext]
        exact List.mem_append_left _ hmem
    | k + 1 =>
      obtain ⟨pid, hentry, hmem⟩ := ih (storeChunk st c).2 k (by simpa using Nat.lt_of_succ_lt_succ hk)
      refine ⟨pid, ?_, ?_⟩
      · simpa [storeChunks] using hentry
      · rw [show (storeChunks (c :: cs) st).2 = (storeChunks cs (storeChunk st c).2).2 from rfl]
        exact hmem

theorem getD_take_500 (d : α) (l : List α) (k : Nat) (hk : k < 500) (hl : k < l.length) :
    (l.take 500).getD k d = l.getD k d := by
  rw [List.getD_eq_getElem _ _ (by simp; omega), List.getD_eq_getElem _ _ hl]
  simp [List.getElem_take]

theorem getD_drop_500 (d : α) (l : List α) (k : Nat) (hl : 500 + k < l.length) :
    (l.drop 500).getD k d = l.getD (500 + k) d := by
  rw [List.getD_eq_getElem _ _ (by simp; omega), List.getD_eq_getElem _ _ hl]
  simp [List.getElem_drop]

theorem chunksOf500_index (d : α) : ∀ (n : Nat) (l : List α), l.length ≤ n →
    ∀ k, k < l.length →
      k / 500 < (chunksOf500 l).length ∧
      k % 500 < ((chunksOf500 l).getD (k / 500) []).length ∧
      ((chunksOf500 l).getD (k / 500) []).getD (k % 500) d = l.getD k d := by
  intro n
  induction n with
  | zero =>
    intro l hl k hk
    omega
  | succ n ih =>
    intro l hl k hk
    match l with
    | [] => simp at hk
    | a :: l' =>
      rw [chunksOf500]
      by_cases h5 : k < 500
      · have hdiv : k / 500 = 0 := by omega
        have hmod : k % 500 = k := by omega
        rw [hdiv, hmod]
        refine ⟨by simp, ?_, ?_⟩
        · simp only [List.getD_cons_zero, List.length_take]
          omega
        · simp only [List.getD_cons_zero]
          exact getD_take_500 d (a :: l') k h5 hk
      · have hdiv : k / 500 = (k - 500) / 500 + 1 := by omega
        have hmod : k % 500 = (k - 500) % 500 := by omega
        have hlen : (a :: l').length ≤ n + 1 := hl
        have hdroplen : ((a :: l').drop 500).length ≤ n := by
          simp only [List.length_drop, List.length_cons]
          simp only [List.length_cons] at hlen
          omega
        have hkdrop : k - 500 < ((a :: l').drop 500).length := by
          simp only [List.length_drop, List.length_cons]
          simp only [List.length_cons] at hk
          omega
        obtain ⟨h₁, h₂, h₃⟩ := ih ((a :: l').drop 500) hdroplen (k - 500) hkdrop
        rw [hdiv, hmod]
        refine ⟨?_, ?_, ?_⟩
        · simp only [List.length_cons]
          omega
        · simp only [List.getD_cons_succ]
          exact h₂
        · simp only [List.getD_cons_succ]
          rw [h₃]
          have hb : 500 + (k - 500) < (a :: l').length := by
            simp only [List.length_cons] at hk ⊢
            omega
          rw [getD_drop_500 d (a :: l') (k - 500) hb]
          have hx : 500 + (k - 500) = k := by omega
          rw [hx]

/- ## Claim C4 -/

/-- Claim C4: round-trip through local storage — for every persisted chunk
list and every position `k`, the batch files written by
`storeEmbeddingsLocally` hold, at batch `k / 500`, entry `k % 500`, a
vectors-file record with the chunk's id and unchanged vector, and a
metadata-file record with the chunk's id whose short-key form translates
back through the persisted PathTable to exactly the chunk's full
metadata. -/
theorem claim_C4 (prevMeta : Option IndexMeta) (indexName : List Char) (now : Nat)
    (chunks : List EmbChunk) (k : Nat) (h : k < chunks.length) :
    ((storeEmbeddingsLocally prevMeta indexName now chunks).batches.getD (k / 500)
        ([], [])).1.getD (k % 500) defVecEntry =
      ⟨(chunks.getD k defEmbChunk).id, (chunks.getD k defEmbChunk).values⟩ ∧
    (((storeEmbeddingsLocally prevMeta indexName now chunks).batches.getD (k / 500)
        ([], [])).2.getD (k % 500) defMetaEntry).id =
      (chunks.getD k defEmbChunk).id ∧
    translateMeta (storeEmbeddingsLocally prevMeta indexName now chunks).pathTable
        ((((storeEmbeddingsLocally prevMeta indexName now chunks).batches.getD (k / 500)
          ([], [])).2.getD (k % 500) defMetaEntry).metadata) =
      (chunks.getD k defEmbChunk).metadata := by
  have hbatches : (storeEmbeddingsLocally prevMeta indexName now chunks).batches =
      (chunksOf500 (storeChunks chunks ⟨[], 0⟩).1).map
        (fun l => (l.map (·.1), l.map (·.2))) := rfl
  have htable : (storeEmbeddingsLocally prevMeta indexName now chunks).pathTable =
      (storeChunks chunks ⟨[], 0⟩).2.table := rfl
  have hlen : (storeChunks chunks ⟨[], 0⟩).1.length = chunks.length :=
    storeChunks_length chunks ⟨[], 0⟩
  have hk' : k < (storeChunks chunks ⟨[], 0⟩).1.length := by rw [hlen]; exact h
  obtain ⟨h₁, h₂, h₃⟩ := chunksOf500_index (defVecEntry, defMetaEntry)
    (storeChunks chunks ⟨[], 0⟩).1.length (storeChunks chunks ⟨[], 0⟩).1 (le_refl _) k hk'
  have hmap : ((chunksOf500 (storeChunks chunks ⟨[], 0⟩).1).map
        (fun l => (l.map (·.1), l.map (·.2)))).getD (k / 500) ([], []) =
      (((chunksOf500 (storeChunks chunks ⟨[], 0⟩).1).getD (k / 500) []).map (·.1),
       ((chunksOf500 (storeChunks chunks ⟨[], 0⟩).1).getD (k / 500) []).map (·.2)) := by
    rw [List.getD_eq_getElem _ _ (by simpa using h₁), List.getD_eq_getElem _ _ h₁,
      List.getElem_map]
  have hvec : (((chunksOf500 (storeChunks chunks ⟨[], 0⟩).1).getD (k / 500) []).map
        (·.1)).getD (k % 500) defVecEntry =
      (((chunksOf500 (storeChunks chunks ⟨[], 0⟩).1).getD (k / 500) []).getD (k % 500)
        (defVecEntry, defMetaEntry)).1 := by
    rw [List.getD_eq_getElem _ _ (by simpa using h₂), List.getD_eq_getElem _ _ h₂,
      List.getElem_map]
  have hmeta : (((chunksOf500 (storeChunks chunks ⟨[], 0⟩).1).getD (k / 500) []).map
        (·.2)).getD (k % 500) defMetaEntry =
      (((chunksOf500 (storeChunks chunks ⟨[], 0⟩).1).getD (k / 500) []).getD (k % 500)
        (defVecEntry, defMetaEntry)).2 := by
    rw [List.getD_eq_getElem _ _ (by simpa using h₂), List.getD_eq_getElem _ _ h₂,
      List.getElem_map]
  obtain ⟨pid, hentry, hmem⟩ := storeChunks_entry chunks ⟨[], 0⟩ k (by rw [← hlen]; exact hk')
  have hinv : pathInv (storeChunks chunks ⟨[], 0⟩).2 :=
    storeChunks_inv chunks ⟨[], 0⟩ ⟨rfl, fun k hk => by simp at hk⟩
  have hresolve : resolvePath (storeChunks chunks ⟨[], 0⟩).2.table pid =
      (chunks.getD k defEmbChunk).metadata.path := by
    unfold resolvePath
    rw [find?_by_value 0 _ hinv.2 _ _ hmem]
  rw [hbatches, htable, hmap]
  refine ⟨?_, ?_, ?_⟩
  · rw [hvec, h₃, hentry]
  · rw [hmeta, h₃, hentry]
  · rw [hmeta, h₃, hentry]
    show translateMeta _ ⟨pid, _, _, _⟩ = _
    unfold translateMeta
    rw [hresolve]

/-- Witness for claim C4 at a concrete one-chunk store. -/
theorem claim_C4_witness :
    ((storeEmbeddingsLocally none ['i'] 7
        [⟨['d'], [], ⟨['p'], ['t'], ['n'], ['c']⟩⟩]).batches.getD 0
        ([], [])).1.getD 0 defVecEntry = ⟨['d'], []⟩ ∧
    translateMeta (storeEmbeddingsLocally none ['i'] 7
        [⟨['d'], [], ⟨['p'], ['t'], ['n'], ['c']⟩⟩]).pathTable
        ((((storeEmbeddingsLocally none ['i'] 7
          [⟨['d'], [], ⟨['p'], ['t'], ['n'], ['c']⟩⟩]).batches.getD 0
          ([], [])).2.getD 0 defMetaEntry).metadata) =
      ⟨['p'], ['t'], ['n'], ['c']⟩ :=
  ⟨(claim_C4 none ['i'] 7 [⟨['d'], [], ⟨['p'], ['t'], ['n'], ['c']⟩⟩] 0 (by decide)).1,
   (claim_C4 none ['i'] 7 [⟨['d'], [], ⟨['p'], ['t'], ['n'], ['c']⟩⟩] 0 (by decide)).2.2⟩

/- ## Lemmas about the similarity search -/

theorem scoreBatch_scores (qv : List ℝ) (table : List (List Char × List Char)) :
    ∀ (vecs : List VecEntry) (metas : List StoredMeta),
      ∀ r ∈ (scoreBatch qv table vecs metas).1, 1 / 2 < r.score := by
  intro vecs
  induction vecs with
  | nil => intro metas r hr; simp [scoreBatch] at hr
  | cons v vs ih =>
    intro metas r hr
    match metas with
    | [] => simp [scoreBatch] at hr
    | m :: ms =>
      simp only [scoreBatch] at hr
      rcases hpair : scoreBatch qv table vs ms with ⟨rest, ok⟩
      rw [hpair] at hr
      by_cases hs : calculateCosineSimilarity qv v.values > 1 / 2
      · rw [if_pos hs] at hr
        rcases List.mem_cons.mp hr with rfl | hmem
        · exact hs
        · have := ih ms r
          rw [hpair] at this
          exact this hmem
      · rw [if_neg hs] at hr
        have := ih ms r
        rw [hpair] at this
        exact this hr

theorem scanBatches_scores (qv : List ℝ) (table : List (List Char × List Char)) :
    ∀ (bs : List DiskBatch), ∀ r ∈ scanBatches qv table bs, 1 / 2 < r.score := by
  intro bs
  induction bs with
  | nil => intro r hr; simp [scanBatches] at hr
  | cons b rest ih =>
    intro r hr
    match b with
    | DiskBatch.absent => simp [scanBatches] at hr
    | DiskBatch.unreadable => simp [scanBatches] at hr
    | DiskBatch.present vecs metas =>
      simp only [scanBatches] at hr
      rcases hpair : scoreBatch qv table vecs metas with ⟨rs, ok⟩
      rw [hpair] at hr
      have hscores := scoreBatch_scores qv table vecs metas
      rw [hpair] at hscores
      by_cases hok : ok
      · rw [if_pos hok] at hr
        rcases List.mem_append.mp hr with hmem | hmem
        · exact hscores r hmem
        · exact ih r hmem
      · rw [if_neg hok] at hr
        exact hscores r hr

theorem scanBatches_take (qv : List ℝ) (table : List (List Char × List Char)) :
    ∀ (bs : List DiskBatch) (g : Nat),
      (bs.getD g DiskBatch.absent).stopsScan = true →
      scanBatches qv table bs = scanBatches qv table (bs.take g) := by
  intro bs
  induction bs with
  | nil => intro g _; simp
  | cons b rest ih =>
    intro g hstop
    match g with
    | 0 =>
      simp only [List.getD_cons_zero] at hstop
      match b with
      | DiskBatch.absent => rfl
      | DiskBatch.unreadable => rfl
      | DiskBatch.present _ _ => simp [DiskBatch.stopsScan] at hstop
    | g + 1 =>
      simp only [List.getD_cons_succ] at hstop
      rw [List.take_succ_cons]
      match b with
      | DiskBatch.absent => rfl
      | DiskBatch.unreadable => rfl
      | DiskBatch.present vecs metas =>
        simp only [scanBatches]
        rcases hpair : scoreBatch qv table vecs metas with ⟨rs, ok⟩
        rw [ih g hstop]

/- ## Claim C7 -/

/-- Claim C7: for every filesystem, current/home directory, query vector,
index name and `topK`, local search returns at most `topK` results, sorted
non-increasingly by score, and every returned score is strictly above the
0.5 threshold. -/
theorem claim_C7 (fs : SearchFS) (cwd home : List Char) (qv : List ℝ)
    (indexName : List Char) (topK : Nat) :
    (searchCodebaseLocally fs cwd home qv indexName topK).length ≤ topK ∧
    List.Sorted scoreGE (searchCodebaseLocally fs cwd home qv indexName topK) ∧
    ∀ r ∈ searchCodebaseLocally fs cwd home qv indexName topK, 1 / 2 < r.score := by
  simp only [searchCodebaseLocally]
  split
  · simp [List.Sorted]
  · split
    · refine ⟨?_, ?_, ?_⟩
      · rw [List.length_take]
        exact min_le_left _ _
      · exact List.Pairwise.sublist (List.take_sublist _ _)
          (List.sorted_insertionSort scoreGE _)
      · intro r hr
        have hr' := List.mem_of_mem_take hr
        rw [sortByScore, List.mem_insertionSort] at hr'
        exact scanBatches_scores qv _ _ r hr'
    · simp [List.Sorted]

/-- Witness for claim C7 on the empty filesystem. -/
theorem claim_C7_witness :
    (searchCodebaseLocally emptyFS ['w'] ['h'] [] ['i'] 5).length ≤ 5 ∧
    List.Sorted scoreGE (searchCodebaseLocally emptyFS ['w'] ['h'] [] ['i'] 5) ∧
    ∀ r ∈ searchCodebaseLocally emptyFS ['w'] ['h'] [] ['i'] 5, 1 / 2 < r.score :=
  claim_C7 emptyFS ['w'] ['h'] [] ['i'] 5

/- ## Claim C8 -/

/-- Claim C8: when the index name resolves to no storage location, local
search returns the empty result list (and, the model being total, raises
nothing). -/
theorem claim_C8 (fs : SearchFS) (cwd home : List Char) (qv : List ℝ)
    (indexName : List Char) (topK : Nat)
    (h : getStorageLocation fs cwd home indexName = none) :
    searchCodebaseLocally fs cwd home qv indexName topK = [] := by
  simp only [searchCodebaseLocally, h]

/-- Witness for claim C8 on the empty filesystem, where nothing
resolves. -/
theorem claim_C8_witness :
    getStorageLocation emptyFS ['w'] ['h'] ['i'] = none ∧
    searchCodebaseLocally emptyFS ['w'] ['h'] [] ['i'] 5 = [] :=
  ⟨rfl, claim_C8 emptyFS ['w'] ['h'] [] ['i'] 5 rfl⟩

/- ## Claim C9 -/

/-- Claim C9, counterexample, two scenarios. (a) On a filesystem where
only the primary per-index directory exists and no `meta.json` exists
anywhere, `getStorageLocation` returns the primary directory even
though its IndexMetadata file does not exist — while the claim's
first-candidate-with-IndexMetadata rule (`resolveByMetaFile`) returns
`none`. (b) On a filesystem where only the well-known alternate
directory `<cwd>/.code-connoisseur-alt/vectors/<index>` and its
`meta.json` exist, `getStorageLocation` returns `none` — the
candidates stage is dead, since `glob` is undefined in vectorStore.js —
while the claim's rule returns that directory. -/
theorem claim_C9_counterexample :
    getStorageLocation primaryOnlyFS ['w'] ['h'] ['i'] =
      some (joinP (localVectorPath ['w']) ['i']) ∧
    primaryOnlyFS.pathExists
      (joinP (joinP (localVectorPath ['w']) ['i']) "meta.json".data) = false ∧
    resolveByMetaFile primaryOnlyFS ['w'] ['h'] ['i'] = none ∧
    getStorageLocation altOnlyFS ['w'] ['h'] ['i'] = none ∧
    resolveByMetaFile altOnlyFS ['w'] ['h'] ['i'] =
      some (joinP (joinP (joinP ['w'] ".code-connoisseur-alt".data) "vectors".data) ['i']) :=
  ⟨rfl, rfl, rfl, rfl, rfl⟩

/-- Claim C9 (amended): `getStorageLocation` probes, in order, the primary
root, the recorded alternate-location pointer, and the legacy home root —
each won on bare path existence (the pointer additionally requiring a
truthy `alternate_path` that exists), with no IndexMetadata check
anywhere. The final well-known-candidates stage can never return a
candidate, because `glob` is not imported by vectorStore.js: its
`glob.sync` call throws a ReferenceError that the per-pattern catch
swallows. So `none` is returned whenever the first three probes miss. -/
theorem claim_C9_amended (fs : SearchFS) (cwd home indexName : List Char) :
    getStorageLocation fs cwd home indexName =
      resolveAmended fs cwd home indexName := by
  simp only [getStorageLocation, resolveAmended, resolveSteps]
  by_cases hA : fs.pathExists (joinP (localVectorPath cwd) indexName)
  · simp [hA]
  · cases hrec : recordedAlternate fs cwd indexName with
    | some alt => simp [hA, hrec]
    | none =>
      by_cases hL : fs.pathExists
          (joinP (joinP home ".code-connoisseur-vectors".data) indexName)
      · simp [hA, hrec, hL]
      · simp [hA, hrec, hL]

/- ## Claim C10 -/

/-- Claim C10: the scanning loop of local search processes batch files
from index 0 and stops at the first absent or unreadable batch — so for
every filesystem whose resolved index directory has a stopping batch at
index `g`, the search result is unchanged when all batches from index `g`
on are removed: chunks stored past such a gap are never scored or
returned. -/
theorem claim_C10 (fs : SearchFS) (cwd home : List Char) (qv : List ℝ)
    (indexName : List Char) (topK g : Nat) (dir : List Char)
    (hres : getStorageLocation fs cwd home indexName = some dir)
    (hstop : ((fs.batchesAt dir).getD g DiskBatch.absent).stopsScan = true) :
    searchCodebaseLocally fs cwd home qv indexName topK =
      searchCodebaseLocally
        ⟨fs.pathExists, fs.readLocationJson, fs.readPathsJson,
         fun d => if d = dir then (fs.batchesAt dir).take g else fs.batchesAt d⟩
        cwd home qv indexName topK := by
  have hres' : getStorageLocation
      ⟨fs.pathExists, fs.readLocationJson, fs.readPathsJson,
       fun d => if d = dir then (fs.batchesAt dir).take g else fs.batchesAt d⟩
      cwd home indexName = some dir := hres
  simp only [searchCodebaseLocally, hres, hres']
  split
  · rw [if_pos trivial, ← scanBatches_take qv _ (fs.batchesAt dir) g hstop]
  · rfl

/-- Witness for claim C10 on a filesystem whose index has batches 0 and 2
present but batch 1 absent. -/
theorem claim_C10_witness :
    getStorageLocation gapFS ['w'] ['h'] ['i'] =
      some (joinP (localVectorPath ['w']) ['i']) ∧
    ((gapFS.batchesAt (joinP (localVectorPath ['w']) ['i'])).getD 1
      DiskBatch.absent).stopsScan = true ∧
    searchCodebaseLocally gapFS ['w'] ['h'] [] ['i'] 5 =
      searchCodebaseLocally
        ⟨gapFS.pathExists, gapFS.readLocationJson, gapFS.readPathsJson,
         fun d => if d = joinP (localVectorPath ['w']) ['i'] then
             (gapFS.batchesAt (joinP (localVectorPath ['w']) ['i'])).take 1
           else gapFS.batchesAt d⟩
        ['w'] ['h'] [] ['i'] 5 :=
  ⟨rfl, rfl,
   claim_C10 gapFS ['w'] ['h'] [] ['i'] 5 1 (joinP (localVectorPath ['w']) ['i'])
     rfl rfl⟩

end CodeConn
